import Mathlib

/-!
Verification of the NFT marketplace contract (`src/nft/src/lib.rs`).

The contract is shallowly embedded: the persistent collections
(`LookupMap`, `UnorderedSet`, `TreeMap`) become association lists and
duplicate-free lists, `u128` arithmetic becomes `Nat` with explicit
checks against `2 ^ 128` (the NEAR build aborts on overflow: the source
uses `checked_*` everywhere it matters and the spec states that
overflow must abort the call, never wrap), and each public method
becomes a function from the contract state and the relevant pieces of
the environment (predecessor account, attached deposit) to an
`Except`-result.  A failed call rolls the whole transaction back, so
the state-machine step function keeps the old state whenever a method
returns an error; promises queued by a failing call are discarded by
the platform and are therefore only reported for successful calls.
-/

deriving instance DecidableEq for Except

namespace NftMarketplace

/-! ## Association-list and set-list primitives

`LookupMap`/`TreeMap` are modelled as association lists with unique
keys (uniqueness holds for every list the operations below build), and
`UnorderedSet` as a list without duplicates: `setInsert` is a no-op on
a present element, `setRemove` removes the element. -/
def getVal {K V : Type} [DecidableEq K] : List (K × V) → K → Option V
  | [], _ => none
  | (k, v) :: t, k' => if k' = k then some v else getVal t k'

def setVal {K V : Type} [DecidableEq K] : List (K × V) → K → V → List (K × V)
  | [], k, v => [(k, v)]
  | (k0, v0) :: t, k, v => if k0 = k then (k, v) :: t else (k0, v0) :: setVal t k v

/-- Removing a key from the map; keys are unique in every reachable
map, so removing every binding of the key is exactly the map's `remove`. -/
def eraseKey {K V : Type} [DecidableEq K] : List (K × V) → K → List (K × V)
  | [], _ => []
  | (k0, v0) :: t, k => if k0 = k then eraseKey t k else (k0, v0) :: eraseKey t k

def setInsert {α : Type} [DecidableEq α] (l : List α) (a : α) : List α :=
  if a ∈ l then l else l ++ [a]

def setRemove {α : Type} [DecidableEq α] : List α → α → List α
  | [], _ => []
  | x :: t, a => if x = a then setRemove t a else x :: setRemove t a

/-! ## Machine arithmetic

`u128` values are `Nat`s; operations that can leave `[0, 2^128)` are
explicit about it.  The NEAR build aborts the call on overflow or
underflow (the source uses `checked_mul`/`checked_add`/`checked_sub`
with `unwrap`, and plain arithmetic aborts as well because overflow
checks are enabled for contract builds, per the spec's arithmetic
rules: "overflow must abort the call, never wrap"). -/
def U128LIMIT : Nat := 2 ^ 128

inductive Err where
  | overflow
  | underflow
  | insufficientPrice   -- "Insufficient price to mint"
  | exceededSupply      -- "Exceeded total supply"
  | tokenExists         -- registry: token_id must be unique
  | tokenNotFound       -- "Token not found"
  | bucketMissing       -- "Unable to access tokens per owner in unguarded call."
  | oneYocto            -- assert_one_yocto
  | unauthorized        -- sender is neither the owner nor approved
  | sameOwner           -- owner and receiver must differ
  | notOwner            -- "You don't own this NFT"
  | storageMin          -- "Requires minimum deposit of ..."
  | unwrapFailed        -- a failing unwrap

deriving Repr, DecidableEq

def checkedAdd (a b : Nat) : Except Err Nat :=
  if a + b < U128LIMIT then .ok (a + b) else .error .overflow

def checkedMul (a b : Nat) : Except Err Nat :=
  if a * b < U128LIMIT then .ok (a * b) else .error .overflow

def checkedSub (a b : Nat) : Except Err Nat :=
  if b ≤ a then .ok (a - b) else .error .underflow

def isOk {α : Type} : Except Err α → Bool
  | .ok _ => true
  | .error _ => false

/-! ## Contract state

The fields of `struct Contract`, with the `NonFungibleToken` registry's
relevant internals (`owner_id`, `owner_by_id`, `tokens_per_owner`)
flattened in.  Token metadata is opaque to every verified property and
is omitted; the approval maps are omitted because no operation modelled
here ever grants an approval, so they are empty in every reachable
state and the registry's approval checks degenerate to "sender must be
the owner". -/
structure Contract where
  owner_id : String                                -- tokens.owner_id (collection owner)
  owner_by_id : List (String × String)             -- tokens.owner_by_id
  tokens_per_owner : List (String × List String)   -- tokens.tokens_per_owner (enumeration index)
  index : Nat
  total_supply : Nat
  mint_price : Nat
  mint_currency : Option String
  payment_split_percent : Nat
  storage_deposits : List (String × Nat)
  ft_deposits : List (String × Nat)
  burn_fee : Nat
  balances_by_owner : List (String × Nat)
  holders : List String
  treasury : String
  royalty : Nat

deriving Repr, DecidableEq

structure Token where
  token_id : String
  owner_id : String

deriving Repr, DecidableEq

/-- The constants of the source: a per-byte storage price and the fixed
vault storage reserve, in yoctoNEAR. -/
def NEAR_PER_STORAGE : Nat := 10000000000000000000

def STORAGE_PER_SALE : Nat := 1000 * NEAR_PER_STORAGE

def VAULT_STORAGE : Nat := 19800000000000000000000

/-- The owner's per-owner token bucket in the enumeration index
(an absent key reads as the empty bucket). -/
def bucketOf (c : Contract) (a : String) : List String :=
  (getVal c.tokens_per_owner a).getD []

def fget (l : List (String × Nat)) (a : String) : Nat :=
  (getVal l a).getD 0

/-- Asynchronous calls scheduled by a method.  The vault sub-account
address is derived deterministically as `"<token_id>.<contract account>"`;
since the contract's own account is fixed, the schedules are keyed by
`token_id` here. -/
inductive Sched where
  /-- Create the vault sub-account, deploy the vault code into it,
  transfer `minimum_needed` and call its `init` entry point. -/
  | provision (tokenId : String) (minimumNeeded : Nat)
  /-- The `.then(... resolve_create(vault, collection_owner, owner_amount,
  vault_amount))` continuation. -/
  | resolve (collectionOwner : String) (ownerAmount : Nat) (vaultAmount : Nat)
  /-- The `withdraw` call on the token's vault issued by `burn`. -/
  | vaultWithdraw (tokenId : String) (owner : String) (burnFee : Nat)

deriving Repr, DecidableEq

/-- Transfers dispatched by `withdraw`. -/
inductive WEffect where
  | ftTransfer (ft : String) (receiver : String) (amount : Nat)
  | nearTransfer (receiver : String) (amount : Nat)

deriving Repr, DecidableEq

/-! ## Initialization (`new`) -/
/-- The `#[init]` constructor.  `metadata` is opaque and omitted;
`state_exists` is a platform check outside the embedded state. -/
def new (owner_id : String) (mint_price : Nat) (mint_currency : Option String)
    (payment_split_percent : Nat) (total_supply : Nat) (burn_fee : Nat)
    (treasury : String) (royalty : Nat) : Contract :=
  { owner_id := owner_id
    owner_by_id := []
    tokens_per_owner := []
    index := 0
    total_supply := total_supply
    mint_price := mint_price
    mint_currency := mint_currency
    payment_split_percent := payment_split_percent
    storage_deposits := []
    ft_deposits := []
    burn_fee := burn_fee
    balances_by_owner := []
    holders := []
    treasury := treasury
    royalty := royalty }

/-! ## Minting (`nft_mint`)

The method's synchronous body in source order:
holders-insert of the *caller* → `minimum_needed` from the vault code
size → payment validation → mint split arithmetic → construction of the
vault-provisioning promise chain with its `resolve_create` continuation
→ index increment → supply-cap check → token-registry mint.

The vault code size (`include_bytes!("./vault/vault.wasm").len()`) is a
build-time constant not present in the sources, so it is threaded
through as the parameter `codeLen`. -/
def minimumNeeded (codeLen : Nat) : Except Err Nat :=
  match checkedMul NEAR_PER_STORAGE codeLen with
  | .error e => .error e
  | .ok base => checkedAdd base VAULT_STORAGE

/-- Payment validation of `nft_mint`: with a configured mint currency,
the attached deposit must cover `minimum_needed` and the caller's
pre-loaded `ft_deposits` balance must cover the mint price; otherwise
the deposit must cover `mint_price + minimum_needed`. -/
def mintPaymentCheck (c : Contract) (caller : String) (deposit mn : Nat) : Except Err Unit :=
  match c.mint_currency with
  | some _ =>
      if mn ≤ deposit ∧ c.mint_price ≤ fget c.ft_deposits caller then .ok ()
      else .error .insufficientPrice
  | none =>
      match checkedAdd c.mint_price mn with
      | .error e => .error e
      | .ok need => if need ≤ deposit then .ok () else .error .insufficientPrice

/-- The mint split: `vault_amount = mint_price * payment_split_percent
/ 100` (checked multiply, truncating divide) and `owner_amount =
mint_price - vault_amount` (checked subtract). -/
def mintSplit (c : Contract) : Except Err (Nat × Nat) :=
  match checkedMul c.mint_price c.payment_split_percent with
  | .error e => .error e
  | .ok p =>
      match checkedSub c.mint_price (p / 100) with
      | .error e => .error e
      | .ok ownerAmount => .ok (p / 100, ownerAmount)

/-- The tail of `nft_mint` after the promise chain has been built:
increment `index` (checked), enforce the supply cap when
`total_supply > 0`, then mint in the token registry.  The registry's
`internal_mint_with_refund` (an external collaborator) is modelled from
the spec: it requires the token id to be unused, records the owner and
adds the token to the owner's enumeration bucket, and returns the
token. -/
def mintFinish (c1 : Contract) (tokenId tokenOwner : String) : Except Err (Contract × Token) :=
  match checkedAdd c1.index 1 with
  | .error e => .error e
  | .ok idx =>
      if 0 < c1.total_supply ∧ c1.total_supply < idx then .error .exceededSupply
      else if (getVal c1.owner_by_id tokenId).isSome then .error .tokenExists
      else .ok
        ({ c1 with
            index := idx
            owner_by_id := setVal c1.owner_by_id tokenId tokenOwner
            tokens_per_owner := setVal c1.tokens_per_owner tokenOwner
              (setInsert ((getVal c1.tokens_per_owner tokenOwner).getD []) tokenId) },
          ⟨tokenId, tokenOwner⟩)

/-- `nft_mint`.  The first component is the list of promise batches
*constructed* during the call's execution, in order; the second is the
call's result.  Promises constructed by a call that later panics are
discarded by the platform together with all state changes (see
`issuedScheds`), but the trace records that the construction happened,
which is what the supply-cap-ordering property is about.  Note the
commented-out authorization check in the source: the caller is
unconstrained. -/
def nft_mint (codeLen : Nat) (c : Contract) (caller : String) (deposit : Nat)
    (tokenId tokenOwner : String) : List Sched × Except Err (Contract × Token) :=
  match minimumNeeded codeLen with
  | .error e => ([], .error e)
  | .ok mn =>
      match mintPaymentCheck c caller deposit mn with
      | .error e => ([], .error e)
      | .ok _ =>
          match mintSplit c with
          | .error e => ([], .error e)
          | .ok (vaultAmount, ownerAmount) =>
              ([Sched.provision tokenId mn, Sched.resolve c.owner_id ownerAmount vaultAmount],
                mintFinish { c with holders := setInsert c.holders caller } tokenId tokenOwner)

/-- The promises actually issued by a mint call: the constructed
batches when the call succeeds, none when it panics (the platform
discards promises queued by a failing call). -/
def issuedScheds (r : List Sched × Except Err (Contract × Token)) : List Sched :=
  match r.2 with
  | .ok _ => r.1
  | .error _ => []

/-! ## Transfers

The three transfer entry points (`nft_transfer`, `nft_transfer_call`,
`nft_transfer_payout`) each repeat the same holder-registry block
before delegating to the token registry's transfer, which is modelled
from the spec: it requires exactly one yoctoNEAR, a sender who is the
owner (no approvals are ever granted by the modelled operations), and
distinct owner and receiver, then moves the token in `owner_by_id` and
between the enumeration buckets (dropping the sender's bucket key when
it empties). -/
/-- The holder-registry update block shared verbatim by the three
transfer entry points: drop the sender when their pre-transfer bucket
has exactly one token; add the receiver when their pre-transfer bucket
is absent or empty. -/
def holdersAfterTransfer (c : Contract) (ownerId receiver : String)
    (senderTokens : List String) : List String :=
  let h1 := if senderTokens.length = 1 then setRemove c.holders ownerId else c.holders
  match getVal c.tokens_per_owner receiver with
  | none => setInsert h1 receiver
  | some rt => if rt.length = 0 then setInsert h1 receiver else h1

/-- The enumeration-index update of the registry's internal transfer:
remove the token from the sender's bucket (dropping the key when the
bucket empties), then add it to the receiver's bucket. -/
def bucketsAfterTransfer (b : List (String × List String)) (ownerId receiver : String)
    (senderTokens : List String) (tokenId : String) : List (String × List String) :=
  let st' := setRemove senderTokens tokenId
  let b1 := if st' = [] then eraseKey b ownerId else setVal b ownerId st'
  setVal b1 receiver (setInsert ((getVal b1 receiver).getD []) tokenId)

/-- The common state transition of the three transfer entry points:
the wrapper's holder-registry block followed by the registry
collaborator's transfer. -/
def transferWithHolders (c : Contract) (caller : String) (deposit : Nat)
    (receiver tokenId : String) : Except Err Contract :=
  match getVal c.owner_by_id tokenId with
  | none => .error .tokenNotFound
  | some ownerId =>
      match getVal c.tokens_per_owner ownerId with
      | none => .error .bucketMissing
      | some senderTokens =>
          if deposit ≠ 1 then .error .oneYocto
          else if caller ≠ ownerId then .error .unauthorized
          else if ownerId = receiver then .error .sameOwner
          else .ok { c with
              holders := holdersAfterTransfer c ownerId receiver senderTokens
              owner_by_id := setVal c.owner_by_id tokenId receiver
              tokens_per_owner :=
                bucketsAfterTransfer c.tokens_per_owner ownerId receiver senderTokens tokenId }

def nft_transfer (c : Contract) (caller : String) (deposit : Nat)
    (receiver tokenId : String) : Except Err Contract :=
  transferWithHolders c caller deposit receiver tokenId

/-- `nft_transfer_call`: same synchronous state transition as
`nft_transfer`; the scheduled `nft_on_transfer` receiver call and its
`nft_resolve_transfer` continuation are external collaborators outside
the modelled operations. -/
def nft_transfer_call (c : Contract) (caller : String) (deposit : Nat)
    (receiver tokenId : String) : Except Err Contract :=
  transferWithHolders c caller deposit receiver tokenId

def royalty_to_payout (a b : Nat) : Except Err Nat :=
  match checkedMul a b with
  | .error e => .error e
  | .ok p => .ok (p / 10000)

/-- `nft_transfer_payout`: one-yocto check, owner lookup, the shared
transfer transition, then — when a sale balance is supplied — the
royalty split, returned as a map built by two inserts (collection owner
first, previous owner second, the second overwriting the first when the
two accounts coincide). -/
def nft_transfer_payout (c : Contract) (caller : String) (deposit : Nat)
    (receiver tokenId : String) (balance : Option Nat) :
    Except Err (Contract × Option (List (String × Nat))) :=
  if deposit ≠ 1 then .error .oneYocto
  else
    match getVal c.owner_by_id tokenId with
    | none => .error .tokenNotFound
    | some previousOwner =>
        match transferWithHolders c caller deposit receiver tokenId with
        | .error e => .error e
        | .ok c' =>
            match balance with
            | none => .ok (c', none)
            | some b =>
                match royalty_to_payout c.royalty b with
                | .error e => .error e
                | .ok collectionCut =>
                    match checkedSub 10000 c.royalty with
                    | .error e => .error e
                    | .ok bp =>
                        match royalty_to_payout bp b with
                        | .error e => .error e
                        | .ok sellerCut =>
                            .ok (c', some (setVal (setVal [] c.owner_id collectionCut)
                              previousOwner sellerCut))

/-! ## Burning (`burn`) -/
/-- The burn dividend: `0` when `holders_count = 0`, otherwise
`mint_price * payment_split_percent * burn_fee / 20000 / holders_count`
with checked multiplications and two successive truncating divisions. -/
def burnDividend (c : Contract) (hc : Nat) : Except Err Nat :=
  if hc = 0 then .ok 0
  else
    match checkedMul c.mint_price c.payment_split_percent with
    | .error e => .error e
    | .ok x1 =>
        match checkedMul x1 c.burn_fee with
        | .error e => .error e
        | .ok x2 => .ok (x2 / 20000 / hc)

/-- Crediting loop of `burn`: every holder in registry iteration order,
except the burning owner, has the dividend added to their payout
balance. -/
def creditAll (hs : List String) (owner : String) (amt : Nat)
    (bal : List (String × Nat)) : List (String × Nat) :=
  hs.foldl (fun b other => if other ≠ owner then setVal b other (fget b other + amt) else b) bal

/-- The tail of `burn` after the enumeration index and holder registry
have been updated: `holders_count` is the new registry size, minus one
when the burning owner kept other tokens (`removed == false`, an
unchecked `u128` subtraction that aborts on underflow); then the
dividend is computed and credited, and the vault `withdraw` call is
scheduled. -/
def burnFinish (c : Contract) (ob : List (String × String))
    (buckets' : List (String × List String)) (holders' : List String)
    (removed : Bool) (caller tokenId : String) : Except Err (Contract × Sched) :=
  match (if removed then Except.ok holders'.length else checkedSub holders'.length 1) with
  | .error e => .error e
  | .ok hc =>
      match burnDividend c hc with
      | .error e => .error e
      | .ok amt =>
          .ok ({ c with
              owner_by_id := ob
              tokens_per_owner := buckets'
              holders := holders'
              balances_by_owner := creditAll holders' caller amt c.balances_by_owner },
            Sched.vaultWithdraw tokenId caller c.burn_fee)

/-- `burn`: only the token's owner may burn; the token is removed from
`owner_by_id` and from the owner's enumeration bucket, the owner is
dropped from the holder registry exactly when that bucket empties, and
the dividend is credited to the remaining holders.  (Metadata and
approval bookkeeping of the source is dropped: metadata is opaque and
the approval maps are always empty here.) -/
def burn (c : Contract) (caller : String) (tokenId : String) :
    Except Err (Contract × Sched) :=
  match getVal c.owner_by_id tokenId with
  | none => .error .tokenNotFound
  | some tokenOwner =>
      if caller ≠ tokenOwner then .error .notOwner
      else
        match getVal c.tokens_per_owner caller with
        | none => .error .bucketMissing
        | some ownerTokens =>
            if setRemove ownerTokens tokenId = [] then
              burnFinish c (eraseKey c.owner_by_id tokenId) (eraseKey c.tokens_per_owner caller)
                (setRemove c.holders caller) true caller tokenId
            else
              burnFinish c (eraseKey c.owner_by_id tokenId)
                (setVal c.tokens_per_owner caller (setRemove ownerTokens tokenId))
                c.holders false caller tokenId

/-! ## Withdrawal and storage deposits -/
/-- `withdraw`: read the caller's payout balance (default 0); if zero,
do nothing; if positive, dispatch one transfer of the full balance
(alternate currency when configured, else native) and zero the ledger
entry.  The source's `insert(...).unwrap()` on the previous value is
modelled by the presence check (a positive balance implies the key is
present, so the unwrap never fires). -/
def withdraw (c : Contract) (caller : String) : Except Err (Contract × List WEffect) :=
  if 0 < fget c.balances_by_owner caller then
    match getVal c.balances_by_owner caller with
    | some _ =>
        .ok ({ c with balances_by_owner := setVal c.balances_by_owner caller 0 },
          [match c.mint_currency with
           | some ft => WEffect.ftTransfer ft caller (fget c.balances_by_owner caller)
           | none => WEffect.nearTransfer caller (fget c.balances_by_owner caller)])
    | none => .error .unwrapFailed
  else .ok (c, [])

/-- `storage_deposit`: the target defaults to the caller; the attached
deposit must meet `STORAGE_PER_SALE`, and is added to the target's
entry (a plain `+=`, aborting on overflow). -/
def storage_deposit (c : Contract) (caller : String) (deposit : Nat)
    (account : Option String) : Except Err Contract :=
  if deposit < STORAGE_PER_SALE then .error .storageMin
  else
    match checkedAdd (fget c.storage_deposits (account.getD caller)) deposit with
    | .error e => .error e
    | .ok bal =>
        .ok { c with storage_deposits := setVal c.storage_deposits (account.getD caller) bal }

/-! ## The state machine

One constructor per public mutating entry point.  A failing call aborts
the transaction, so `applyOp` keeps the previous state on error. -/
inductive Op where
  | mint (caller : String) (deposit : Nat) (tokenId : String) (tokenOwner : String)
  | transfer (caller : String) (deposit : Nat) (receiver : String) (tokenId : String)
  | transferCall (caller : String) (deposit : Nat) (receiver : String) (tokenId : String)
  | transferPayout (caller : String) (deposit : Nat) (receiver : String) (tokenId : String)
      (balance : Option Nat)
  | burn (caller : String) (tokenId : String)
  | withdraw (caller : String)
  | storageDeposit (caller : String) (deposit : Nat) (account : Option String)

deriving Repr, DecidableEq

def applyOp (codeLen : Nat) (c : Contract) : Op → Contract
  | .mint caller dep tid towner =>
      match (nft_mint codeLen c caller dep tid towner).2 with
      | .ok (c', _) => c'
      | .error _ => c
  | .transfer caller dep r tid =>
      match nft_transfer c caller dep r tid with
      | .ok c' => c'
      | .error _ => c
  | .transferCall caller dep r tid =>
      match nft_transfer_call c caller dep r tid with
      | .ok c' => c'
      | .error _ => c
  | .transferPayout caller dep r tid b =>
      match nft_transfer_payout c caller dep r tid b with
      | .ok (c', _) => c'
      | .error _ => c
  | .burn caller tid =>
      match burn c caller tid with
      | .ok (c', _) => c'
      | .error _ => c
  | .withdraw caller =>
      match withdraw c caller with
      | .ok (c', _) => c'
      | .error _ => c
  | .storageDeposit caller dep acct =>
      match storage_deposit c caller dep acct with
      | .ok c' => c'
      | .error _ => c

def run (codeLen : Nat) (c0 : Contract) (ops : List Op) : Contract :=
  ops.foldl (applyOp codeLen) c0

/-- An operation sequence is "good" when every mint assigns the token
to the calling account itself. -/
def goodOp : Op → Bool
  | .mint caller _ _ towner => towner = caller
  | _ => true

/-! ## The holder-registry invariant

`Inv` ties the holder registry to the enumeration index: an account is
registered iff its bucket is non-empty; a token's recorded owner is
exactly the account whose bucket contains it; buckets are
duplicate-free.  The invariant is preserved by every operation whose
mints assign the token to the caller. -/
structure Inv (c : Contract) : Prop where
  holders_iff : ∀ a, a ∈ c.holders ↔ bucketOf c a ≠ []
  sync : ∀ t a, getVal c.owner_by_id t = some a ↔ t ∈ bucketOf c a
  nodup : ∀ a, (bucketOf c a).Nodup

/-- A deposit comfortably above `mint_price + minimum_needed` for the
scenario states (10^26 yoctoNEAR). -/
def BIGDEP : Nat := 100000000000000000000000000

/-- The collection state after filling a supply cap of 5: five
successful mints, `index = total_supply = 5`. -/
def c2State : Contract := run 0 (new "o" 100 none 100 5 200 "tr" 0)
  [Op.mint "a" BIGDEP "t1" "a", Op.mint "a" BIGDEP "t2" "a", Op.mint "a" BIGDEP "t3" "a",
   Op.mint "a" BIGDEP "t4" "a", Op.mint "a" BIGDEP "t5" "a"]

/-- The scenario of the spec: `mint_price = 100`,
`payment_split_percent = 80`, native currency. -/
def c4Base : Contract := new "o" 100 none 80 0 200 "tr" 0

def c9Base : Contract := new "o" 100 none 80 0 200 "tr" 0

/-- A state with a pending payout balance of 5 for account "a". -/
def c5Base : Contract :=
  { owner_id := "o", owner_by_id := [], tokens_per_owner := [], index := 0,
    total_supply := 0, mint_price := 100, mint_currency := none,
    payment_split_percent := 80, storage_deposits := [], ft_deposits := [],
    burn_fee := 200, balances_by_owner := [("a", 5)], holders := [],
    treasury := "tr", royalty := 0 }

/-! ## The burn dividend (C3) -/
/-- The dividend formula: `0` at zero holders, otherwise
`mint_price * payment_split_percent * burn_fee / 20000 / n` with two
successive truncating divisions. -/
def divAmt (c : Contract) (n : Nat) : Nat :=
  if n = 0 then 0 else c.mint_price * c.payment_split_percent * c.burn_fee / 20000 / n

/-- Two mints by "a" assigning both tokens to "b": the holder registry
holds only "a" while "b" owns t1 and t2. -/
def c3State : Contract := run 0 (new "o" 100 none 100 0 200 "tr" 0)
  [Op.mint "a" BIGDEP "t1" "b", Op.mint "a" BIGDEP "t2" "b"]

/-- Two self-mints by "a" and "b"; burning "b"'s only token removes "b"
from the registry and pays "a" the full dividend. -/
def c3WState : Contract := run 0 (new "o" 100 none 100 0 200 "tr" 0)
  [Op.mint "a" BIGDEP "t1" "a", Op.mint "b" BIGDEP "t2" "b"]

/-- The collection owner ("alice") holds and sells their own token:
previous owner = collection owner. -/
def c6CexState : Contract :=
  { owner_id := "alice", owner_by_id := [("t1", "alice")],
    tokens_per_owner := [("alice", ["t1"])], index := 1, total_supply := 0,
    mint_price := 100, mint_currency := none, payment_split_percent := 80,
    storage_deposits := [], ft_deposits := [], burn_fee := 200,
    balances_by_owner := [], holders := ["alice"], treasury := "tr", royalty := 1000 }

/-- Same scenario with a collection owner ("carol") distinct from the
seller ("alice"). -/
def c6WState : Contract := { c6CexState with owner_id := "carol" }

theorem getVal_setVal_self {K V : Type} [DecidableEq K] (l : List (K × V)) (k : K) (v : V) :
    getVal (setVal l k v) k = some v := by
  induction l with
  | nil => simp [getVal, setVal]
  | cons p t ih =>
    obtain ⟨k0, v0⟩ := p
    by_cases h : k0 = k
    · simp [getVal, setVal, h]
    · have h2 : ¬ k = k0 := fun hh => h hh.symm
      simp [getVal, setVal, h, h2, ih]

theorem getVal_setVal_ne {K V : Type} [DecidableEq K] (l : List (K × V)) {k k' : K} (v : V)
    (h : k' ≠ k) : getVal (setVal l k v) k' = getVal l k' := by
  induction l with
  | nil => simp [getVal, setVal, h]
  | cons p t ih =>
    obtain ⟨k0, v0⟩ := p
    by_cases h0 : k0 = k
    · subst h0
      simp [getVal, setVal, h]
    · by_cases h1 : k' = k0
      · simp [getVal, setVal, h0, h1]
      · simp [getVal, setVal, h0, h1, ih]

theorem getVal_eraseKey_self {K V : Type} [DecidableEq K] (l : List (K × V)) (k : K) :
    getVal (eraseKey l k) k = none := by
  induction l with
  | nil => simp [getVal, eraseKey]
  | cons p t ih =>
    obtain ⟨k0, v0⟩ := p
    by_cases h : k0 = k
    · simp [eraseKey, h, ih]
    · have h2 : ¬ k = k0 := fun hh => h hh.symm
      simp [eraseKey, getVal, h, h2, ih]

theorem getVal_eraseKey_ne {K V : Type} [DecidableEq K] (l : List (K × V)) {k k' : K}
    (h : k' ≠ k) : getVal (eraseKey l k) k' = getVal l k' := by
  induction l with
  | nil => simp [getVal, eraseKey]
  | cons p t ih =>
    obtain ⟨k0, v0⟩ := p
    by_cases h0 : k0 = k
    · subst h0
      simp [eraseKey, getVal, h, ih]
    · by_cases h1 : k' = k0
      · simp [eraseKey, getVal, h0, h1]
      · simp [eraseKey, getVal, h0, h1, ih]

theorem mem_setInsert {α : Type} [DecidableEq α] (l : List α) (a b : α) :
    b ∈ setInsert l a ↔ b ∈ l ∨ b = a := by
  unfold setInsert
  split
  · rename_i hmem
    constructor
    · exact Or.inl
    · rintro (h | rfl)
      · exact h
      · exact hmem
  · simp [List.mem_append]

theorem setInsert_ne_nil {α : Type} [DecidableEq α] (l : List α) (a : α) :
    setInsert l a ≠ [] := by
  intro h
  have hmem : a ∈ setInsert l a := by
    rw [mem_setInsert]
    exact Or.inr rfl
  rw [h] at hmem
  exact absurd hmem (List.not_mem_nil a)

theorem nodup_setInsert {α : Type} [DecidableEq α] {l : List α} (a : α) (h : l.Nodup) :
    (setInsert l a).Nodup := by
  unfold setInsert
  split
  · exact h
  · rename_i hmem
    refine List.Nodup.append h (List.nodup_singleton a) ?_
    intro x hx hxa
    rw [List.mem_singleton] at hxa
    subst hxa
    exact hmem hx

theorem mem_setRemove {α : Type} [DecidableEq α] (l : List α) (a b : α) :
    b ∈ setRemove l a ↔ b ∈ l ∧ b ≠ a := by
  induction l with
  | nil => simp [setRemove]
  | cons x t ih =>
    by_cases h : x = a
    · subst h
      rw [setRemove, if_pos rfl, ih]
      constructor
      · rintro ⟨hb, hne⟩
        exact ⟨List.mem_cons_of_mem _ hb, hne⟩
      · rintro ⟨hb, hne⟩
        rcases List.mem_cons.mp hb with rfl | hb
        · exact absurd rfl hne
        · exact ⟨hb, hne⟩
    · rw [setRemove, if_neg h]
      constructor
      · intro hb
        rcases List.mem_cons.mp hb with rfl | hb
        · exact ⟨List.mem_cons_self _ _, h⟩
        · obtain ⟨h1, h2⟩ := ih.mp hb
          exact ⟨List.mem_cons_of_mem _ h1, h2⟩
      · rintro ⟨hb, hne⟩
        rcases List.mem_cons.mp hb with rfl | hb
        · exact List.mem_cons_self _ _
        · exact List.mem_cons_of_mem _ (ih.mpr ⟨hb, hne⟩)

theorem nodup_setRemove {α : Type} [DecidableEq α] {l : List α} (a : α) (h : l.Nodup) :
    (setRemove l a).Nodup := by
  induction l with
  | nil => simp [setRemove]
  | cons x t ih =>
    rw [List.nodup_cons] at h
    by_cases hx : x = a
    · rw [setRemove, if_pos hx]
      exact ih h.2
    · rw [setRemove, if_neg hx, List.nodup_cons]
      refine ⟨fun hmem => ?_, ih h.2⟩
      exact h.1 ((mem_setRemove t a x).mp hmem).1

theorem not_mem_setRemove_self {α : Type} [DecidableEq α] (l : List α) (a : α) :
    a ∉ setRemove l a := by
  rw [mem_setRemove]
  rintro ⟨-, h⟩
  exact h rfl

theorem checkedAdd_cases (a b : Nat) :
    checkedAdd a b = .ok (a + b) ∨ checkedAdd a b = .error .overflow := by
  unfold checkedAdd
  split <;> simp

theorem checkedMul_cases (a b : Nat) :
    checkedMul a b = .ok (a * b) ∨ checkedMul a b = .error .overflow := by
  unfold checkedMul
  split <;> simp

theorem checkedSub_of_le {a b : Nat} (h : b ≤ a) : checkedSub a b = .ok (a - b) := by
  unfold checkedSub
  rw [if_pos h]

/-! ## Success-shape lemmas

Each lemma recovers, from a successful call, the conditions that held
and the exact resulting state. -/
theorem mint_ok {codeLen : Nat} {c : Contract} {caller : String} {dep : Nat}
    {tid towner : String} {c' : Contract} {tok : Token}
    (h : (nft_mint codeLen c caller dep tid towner).2 = .ok (c', tok)) :
    getVal c.owner_by_id tid = none ∧ tok = ⟨tid, towner⟩ ∧
    c' = { c with
        holders := setInsert c.holders caller
        index := c.index + 1
        owner_by_id := setVal c.owner_by_id tid towner
        tokens_per_owner := setVal c.tokens_per_owner towner
          (setInsert (bucketOf c towner) tid) } := by
  unfold nft_mint at h
  split at h
  · exact absurd h (by simp)
  split at h
  · exact absurd h (by simp)
  split at h
  · exact absurd h (by simp)
  simp only at h
  unfold mintFinish at h
  split at h
  · exact absurd h (by simp)
  rename_i idx hidx
  split at h
  · exact absurd h (by simp)
  split at h
  · exact absurd h (by simp)
  rename_i hcap hfresh
  unfold checkedAdd at hidx
  split at hidx
  · have hidxeq : idx = c.index + 1 := (Except.ok.inj hidx).symm
    subst hidxeq
    injection h with hp
    injection hp with h1 h2
    refine ⟨?_, h2.symm, h1.symm⟩
    cases hopt : getVal c.owner_by_id tid with
    | none => rfl
    | some v =>
      exfalso
      apply hfresh
      show (getVal c.owner_by_id tid).isSome = true
      rw [hopt]
      rfl
  · exact absurd hidx (by simp)

theorem transfer_ok {c : Contract} {caller : String} {dep : Nat} {r tid : String}
    {c' : Contract} (h : transferWithHolders c caller dep r tid = .ok c') :
    ∃ st, getVal c.owner_by_id tid = some caller ∧
      getVal c.tokens_per_owner caller = some st ∧ dep = 1 ∧ caller ≠ r ∧
      c' = { c with
          holders := holdersAfterTransfer c caller r st
          owner_by_id := setVal c.owner_by_id tid r
          tokens_per_owner := bucketsAfterTransfer c.tokens_per_owner caller r st tid } := by
  unfold transferWithHolders at h
  split at h
  · exact absurd h (by simp)
  rename_i ownerId howner
  split at h
  · exact absurd h (by simp)
  rename_i st hst
  split at h
  · exact absurd h (by simp)
  split at h
  · exact absurd h (by simp)
  split at h
  · exact absurd h (by simp)
  rename_i hdep hcaller hne
  have hdep1 : dep = 1 := not_ne_iff.mp hdep
  have hco : caller = ownerId := not_ne_iff.mp hcaller
  subst hco
  exact ⟨st, howner, hst, hdep1, hne, (Except.ok.inj h).symm⟩

theorem payout_ok {c : Contract} {caller : String} {dep : Nat} {r tid : String}
    {b : Option Nat} {c' : Contract} {po : Option (List (String × Nat))}
    (h : nft_transfer_payout c caller dep r tid b = .ok (c', po)) :
    transferWithHolders c caller dep r tid = .ok c' := by
  unfold nft_transfer_payout at h
  split at h
  · exact absurd h (by simp)
  split at h
  · exact absurd h (by simp)
  split at h
  · exact absurd h (by simp)
  rename_i c'' htr
  split at h
  · rw [htr]
    injection h with hp
    injection hp with h1 h2
    rw [h1]
  · split at h
    · exact absurd h (by simp)
    split at h
    · exact absurd h (by simp)
    split at h
    · exact absurd h (by simp)
    rw [htr]
    injection h with hp
    injection hp with h1 h2
    rw [h1]

theorem burnFinish_ok {c : Contract} {ob : List (String × String)}
    {buckets' : List (String × List String)} {holders' : List String} {removed : Bool}
    {caller tid : String} {c' : Contract} {s : Sched}
    (h : burnFinish c ob buckets' holders' removed caller tid = .ok (c', s)) :
    ∃ hc amt,
      (if removed then Except.ok holders'.length else checkedSub holders'.length 1) = .ok hc ∧
      burnDividend c hc = .ok amt ∧
      c' = { c with
          owner_by_id := ob
          tokens_per_owner := buckets'
          holders := holders'
          balances_by_owner := creditAll holders' caller amt c.balances_by_owner } ∧
      s = .vaultWithdraw tid caller c.burn_fee := by
  unfold burnFinish at h
  split at h
  · exact absurd h (by simp)
  rename_i hc hhc
  split at h
  · exact absurd h (by simp)
  rename_i amt hamt
  injection h with hp
  injection hp with h1 h2
  exact ⟨hc, amt, hhc, hamt, h1.symm, h2.symm⟩

theorem burn_ok {c : Contract} {caller tid : String} {c' : Contract} {s : Sched}
    (h : burn c caller tid = .ok (c', s)) :
    getVal c.owner_by_id tid = some caller ∧
    ∃ ownerTokens, getVal c.tokens_per_owner caller = some ownerTokens ∧
      ((setRemove ownerTokens tid = [] ∧
        burnFinish c (eraseKey c.owner_by_id tid) (eraseKey c.tokens_per_owner caller)
          (setRemove c.holders caller) true caller tid = .ok (c', s)) ∨
       (setRemove ownerTokens tid ≠ [] ∧
        burnFinish c (eraseKey c.owner_by_id tid)
          (setVal c.tokens_per_owner caller (setRemove ownerTokens tid))
          c.holders false caller tid = .ok (c', s))) := by
  unfold burn at h
  split at h
  · exact absurd h (by simp)
  rename_i towner howner
  split at h
  · exact absurd h (by simp)
  rename_i hcaller
  have hco : caller = towner := not_ne_iff.mp hcaller
  subst hco
  split at h
  · exact absurd h (by simp)
  rename_i ownerTokens hot
  split at h
  · rename_i hrest
    exact ⟨howner, ownerTokens, hot, Or.inl ⟨hrest, h⟩⟩
  · rename_i hrest
    exact ⟨howner, ownerTokens, hot, Or.inr ⟨hrest, h⟩⟩

theorem withdraw_ok {c : Contract} {caller : String} {c' : Contract} {es : List WEffect}
    (h : withdraw c caller = .ok (c', es)) :
    c'.holders = c.holders ∧ c'.tokens_per_owner = c.tokens_per_owner ∧
    c'.owner_by_id = c.owner_by_id ∧ c'.storage_deposits = c.storage_deposits ∧
    c'.ft_deposits = c.ft_deposits := by
  unfold withdraw at h
  split at h
  · split at h
    · injection h with hp
      injection hp with h1 h2
      rw [← h1]
      exact ⟨rfl, rfl, rfl, rfl, rfl⟩
    · exact absurd h (by simp)
  · injection h with hp
    injection hp with h1 h2
    rw [← h1]
    exact ⟨rfl, rfl, rfl, rfl, rfl⟩

theorem storage_deposit_ok {c : Contract} {caller : String} {dep : Nat}
    {acct : Option String} {c' : Contract}
    (h : storage_deposit c caller dep acct = .ok c') :
    c'.holders = c.holders ∧ c'.tokens_per_owner = c.tokens_per_owner ∧
    c'.owner_by_id = c.owner_by_id ∧ c'.ft_deposits = c.ft_deposits ∧
    c'.balances_by_owner = c.balances_by_owner := by
  unfold storage_deposit at h
  split at h
  · exact absurd h (by simp)
  · split at h
    · exact absurd h (by simp)
    · injection h with h1
      rw [← h1]
      exact ⟨rfl, rfl, rfl, rfl, rfl⟩

theorem bucketOf_eq_of_getVal {c : Contract} {a : String} {l : List String}
    (h : getVal c.tokens_per_owner a = some l) : bucketOf c a = l := by
  unfold bucketOf
  rw [h]
  rfl

theorem exists_other_of_nodup {α : Type} [DecidableEq α] {st : List α} {x : α}
    (hnd : st.Nodup) (hmem : x ∈ st) (hlen : st.length ≠ 1) :
    ∃ u, u ∈ st ∧ u ≠ x := by
  match st with
  | [] => exact absurd hmem (List.not_mem_nil x)
  | [y] => exact absurd rfl hlen
  | y :: z :: t =>
    by_cases hy : y = x
    · subst hy
      rw [List.nodup_cons] at hnd
      refine ⟨z, List.mem_cons_of_mem _ (List.mem_cons_self _ _), fun hz => ?_⟩
      subst hz
      exact hnd.1 (List.mem_cons_self _ _)
    · exact ⟨y, List.mem_cons_self _ _, hy⟩

theorem setRemove_ne_nil {α : Type} [DecidableEq α] {st : List α} {x : α}
    (hnd : st.Nodup) (hmem : x ∈ st) (hlen : st.length ≠ 1) :
    setRemove st x ≠ [] := by
  obtain ⟨u, hu, hux⟩ := exists_other_of_nodup hnd hmem hlen
  intro hempty
  have hmem2 : u ∈ setRemove st x := (mem_setRemove st x u).mpr ⟨hu, hux⟩
  rw [hempty] at hmem2
  exact List.not_mem_nil u hmem2

theorem eq_singleton_of_length_one {α : Type} {st : List α} {x : α}
    (hmem : x ∈ st) (hlen : st.length = 1) : st = [x] := by
  obtain ⟨a, rfl⟩ := List.length_eq_one.mp hlen
  rw [List.mem_singleton] at hmem
  rw [hmem]

theorem inv_new (owner_id : String) (mint_price : Nat) (mint_currency : Option String)
    (payment_split_percent total_supply burn_fee : Nat) (treasury : String) (royalty : Nat) :
    Inv (new owner_id mint_price mint_currency payment_split_percent total_supply
      burn_fee treasury royalty) := by
  refine ⟨fun a => ?_, fun t a => ?_, fun a => ?_⟩ <;>
    simp [new, bucketOf, getVal]

theorem inv_mint {codeLen : Nat} {c : Contract} {caller : String} {dep : Nat}
    {tid : String} {c' : Contract} {tok : Token}
    (hInv : Inv c) (h : (nft_mint codeLen c caller dep tid caller).2 = .ok (c', tok)) :
    Inv c' := by
  obtain ⟨hfresh, -, hc'⟩ := mint_ok h
  subst hc'
  have hbself : ∀ x : List (String × List String), ∀ k l,
      (getVal (setVal x k l) k).getD [] = l := by
    intro x k l
    rw [getVal_setVal_self]
    rfl
  refine ⟨fun a => ?_, fun t a => ?_, fun a => ?_⟩
  · by_cases ha : a = caller
    · subst ha
      constructor
      · intro _
        show (getVal (setVal _ a (setInsert (bucketOf c a) tid)) a).getD [] ≠ []
        rw [getVal_setVal_self]
        exact setInsert_ne_nil _ _
      · intro _
        rw [mem_setInsert]
        exact Or.inr rfl
    · have hbeq : bucketOf { c with
          holders := setInsert c.holders caller
          index := c.index + 1
          owner_by_id := setVal c.owner_by_id tid caller
          tokens_per_owner := setVal c.tokens_per_owner caller
            (setInsert (bucketOf c caller) tid) } a = bucketOf c a := by
        unfold bucketOf
        rw [getVal_setVal_ne _ _ ha]
      rw [show (a ∈ setInsert c.holders caller) ↔ (a ∈ c.holders) by
        rw [mem_setInsert]
        exact ⟨fun hh => hh.resolve_right ha, Or.inl⟩]
      rw [hbeq]
      exact hInv.holders_iff a
  · by_cases ht : t = tid
    · subst ht
      rw [show getVal (setVal c.owner_by_id t caller) t = some caller from
        getVal_setVal_self _ _ _]
      by_cases ha : a = caller
      · subst ha
        simp only [bucketOf, getVal_setVal_self, Option.getD_some]
        constructor
        · intro _
          rw [mem_setInsert]
          exact Or.inr rfl
        · intro _
          trivial
      · constructor
        · intro hsome
          exact absurd (Option.some.inj hsome) (fun hh => ha hh.symm)
        · intro hmem
          exfalso
          have hbeq : bucketOf { c with
              holders := setInsert c.holders caller
              index := c.index + 1
              owner_by_id := setVal c.owner_by_id t caller
              tokens_per_owner := setVal c.tokens_per_owner caller
                (setInsert (bucketOf c caller) t) } a = bucketOf c a := by
            unfold bucketOf
            rw [getVal_setVal_ne _ _ ha]
          rw [hbeq] at hmem
          have := (hInv.sync t a).mpr hmem
          rw [hfresh] at this
          exact absurd this (by simp)
    · rw [show getVal (setVal c.owner_by_id tid caller) t = getVal c.owner_by_id t from
        getVal_setVal_ne _ _ ht]
      by_cases ha : a = caller
      · subst ha
        simp only [bucketOf, getVal_setVal_self, Option.getD_some]
        rw [mem_setInsert]
        constructor
        · intro hsome
          exact Or.inl ((hInv.sync t a).mp hsome)
        · rintro (hmem | hteq)
          · exact (hInv.sync t a).mpr hmem
          · exact absurd hteq ht
      · have hbeq : bucketOf { c with
            holders := setInsert c.holders caller
            index := c.index + 1
            owner_by_id := setVal c.owner_by_id tid caller
            tokens_per_owner := setVal c.tokens_per_owner caller
              (setInsert (bucketOf c caller) tid) } a = bucketOf c a := by
          unfold bucketOf
          rw [getVal_setVal_ne _ _ ha]
        rw [hbeq]
        exact hInv.sync t a
  · by_cases ha : a = caller
    · subst ha
      show ((getVal (setVal _ a (setInsert (bucketOf c a) tid)) a).getD []).Nodup
      rw [getVal_setVal_self]
      exact nodup_setInsert _ (hInv.nodup a)
    · have hbeq : bucketOf { c with
          holders := setInsert c.holders caller
          index := c.index + 1
          owner_by_id := setVal c.owner_by_id tid caller
          tokens_per_owner := setVal c.tokens_per_owner caller
            (setInsert (bucketOf c caller) tid) } a = bucketOf c a := by
        unfold bucketOf
        rw [getVal_setVal_ne _ _ ha]
      rw [hbeq]
      exact hInv.nodup a

theorem getVal_bucketsAfterTransfer_receiver (b : List (String × List String))
    {ownerId receiver : String} (st : List String) (tid : String)
    (hor : ownerId ≠ receiver) :
    getVal (bucketsAfterTransfer b ownerId receiver st tid) receiver =
      some (setInsert ((getVal b receiver).getD []) tid) := by
  simp only [bucketsAfterTransfer]
  split
  · rw [getVal_setVal_self, getVal_eraseKey_ne _ (Ne.symm hor)]
  · rw [getVal_setVal_self, getVal_setVal_ne _ _ (Ne.symm hor)]

theorem getVal_bucketsAfterTransfer_owner (b : List (String × List String))
    {ownerId receiver : String} (st : List String) (tid : String)
    (hor : ownerId ≠ receiver) :
    (getVal (bucketsAfterTransfer b ownerId receiver st tid) ownerId).getD [] =
      setRemove st tid := by
  simp only [bucketsAfterTransfer]
  rw [getVal_setVal_ne _ _ hor]
  split
  · rename_i hemp
    rw [getVal_eraseKey_self, hemp]
    rfl
  · rw [getVal_setVal_self]
    rfl

theorem getVal_bucketsAfterTransfer_other (b : List (String × List String))
    {ownerId receiver a : String} (st : List String) (tid : String)
    (ha : a ≠ ownerId) (har : a ≠ receiver) :
    getVal (bucketsAfterTransfer b ownerId receiver st tid) a = getVal b a := by
  simp only [bucketsAfterTransfer]
  rw [getVal_setVal_ne _ _ har]
  split
  · exact getVal_eraseKey_ne _ ha
  · exact getVal_setVal_ne _ _ ha

theorem mem_holdersAfterTransfer (c : Contract) {ownerId receiver : String}
    (st : List String) (a : String) :
    a ∈ holdersAfterTransfer c ownerId receiver st ↔
      ((a ∈ c.holders ∧ ¬(st.length = 1 ∧ a = ownerId)) ∨
        (a = receiver ∧ bucketOf c receiver = [])) := by
  have h1mem : a ∈ (if st.length = 1 then setRemove c.holders ownerId else c.holders) ↔
      (a ∈ c.holders ∧ ¬(st.length = 1 ∧ a = ownerId)) := by
    split
    · rename_i hlen1
      rw [mem_setRemove]
      constructor
      · rintro ⟨m1, m2⟩
        exact ⟨m1, fun hb => m2 hb.2⟩
      · rintro ⟨m1, m2⟩
        exact ⟨m1, fun he => m2 ⟨hlen1, he⟩⟩
    · rename_i hlen1
      constructor
      · intro m1
        exact ⟨m1, fun hb => hlen1 hb.1⟩
      · rintro ⟨m1, -⟩
        exact m1
  simp only [holdersAfterTransfer]
  split
  · rename_i hrnone
    have hbr : bucketOf c receiver = [] := by
      unfold bucketOf
      rw [hrnone]
      rfl
    rw [mem_setInsert, h1mem]
    constructor
    · rintro (hA | rfl)
      · exact Or.inl hA
      · exact Or.inr ⟨rfl, hbr⟩
    · rintro (hA | ⟨rfl, -⟩)
      · exact Or.inl hA
      · exact Or.inr rfl
  · rename_i rt hrt
    split
    · rename_i hlen0
      have hbr : bucketOf c receiver = [] := by
        unfold bucketOf
        rw [hrt]
        exact List.length_eq_zero.mp hlen0
      rw [mem_setInsert, h1mem]
      constructor
      · rintro (hA | rfl)
        · exact Or.inl hA
        · exact Or.inr ⟨rfl, hbr⟩
      · rintro (hA | ⟨rfl, -⟩)
        · exact Or.inl hA
        · exact Or.inr rfl
    · rename_i hlen0
      have hbr : bucketOf c receiver ≠ [] := by
        unfold bucketOf
        rw [hrt]
        intro he
        exact hlen0 (by rw [show rt = [] from he]; rfl)
      rw [h1mem]
      constructor
      · intro hA
        exact Or.inl hA
      · rintro (hA | ⟨rfl, hbe⟩)
        · exact hA
        · exact absurd hbe hbr

theorem inv_transfer {c c' : Contract} {caller : String} {dep : Nat} {r tid : String}
    (hInv : Inv c) (h : transferWithHolders c caller dep r tid = .ok c') : Inv c' := by
  obtain ⟨st, howner, hst, -, hner, hc'⟩ := transfer_ok h
  subst hc'
  have hbst : bucketOf c caller = st := bucketOf_eq_of_getVal hst
  have htid : tid ∈ st := by
    have hm := (hInv.sync tid caller).mp howner
    rwa [hbst] at hm
  have hndst : st.Nodup := by
    have hm := hInv.nodup caller
    rwa [hbst] at hm
  refine ⟨fun a => ?_, fun t a => ?_, fun a => ?_⟩
  · show a ∈ holdersAfterTransfer c caller r st ↔
      (getVal (bucketsAfterTransfer c.tokens_per_owner caller r st tid) a).getD [] ≠ []
    rw [mem_holdersAfterTransfer]
    by_cases har : a = r
    · subst har
      rw [show (getVal (bucketsAfterTransfer c.tokens_per_owner caller a st tid) a).getD []
          = setInsert (bucketOf c a) tid by
        rw [getVal_bucketsAfterTransfer_receiver _ st tid hner]
        rfl]
      refine iff_of_true ?_ (setInsert_ne_nil _ _)
      by_cases hbr : bucketOf c a = []
      · exact Or.inr ⟨rfl, hbr⟩
      · refine Or.inl ⟨(hInv.holders_iff a).mpr hbr, ?_⟩
        rintro ⟨-, hra⟩
        exact hner hra.symm
    · by_cases hac : a = caller
      · subst hac
        rw [getVal_bucketsAfterTransfer_owner _ st tid hner]
        by_cases hlen : st.length = 1
        · have hstone : st = [tid] := eq_singleton_of_length_one htid hlen
          refine iff_of_false ?_ ?_
          · rintro (⟨-, hno⟩ | ⟨har2, -⟩)
            · exact hno ⟨hlen, rfl⟩
            · exact har har2
          · intro hne
            apply hne
            rw [hstone]
            simp [setRemove]
        · refine iff_of_true ?_ (setRemove_ne_nil hndst htid hlen)
          refine Or.inl ⟨(hInv.holders_iff a).mpr ?_, ?_⟩
          · rw [hbst]
            intro he
            rw [he] at htid
            exact List.not_mem_nil tid htid
          · rintro ⟨hl, -⟩
            exact hlen hl
      · rw [show (getVal (bucketsAfterTransfer c.tokens_per_owner caller r st tid) a).getD []
            = bucketOf c a by
          rw [getVal_bucketsAfterTransfer_other _ st tid hac har]
          rfl]
        constructor
        · rintro (⟨hm, -⟩ | ⟨hra, -⟩)
          · exact (hInv.holders_iff a).mp hm
          · exact absurd hra har
        · intro hb
          exact Or.inl ⟨(hInv.holders_iff a).mpr hb, fun hb2 => hac hb2.2⟩
  · show getVal (setVal c.owner_by_id tid r) t = some a ↔
      t ∈ (getVal (bucketsAfterTransfer c.tokens_per_owner caller r st tid) a).getD []
    by_cases ht : t = tid
    · subst ht
      rw [getVal_setVal_self]
      by_cases har : a = r
      · subst har
        rw [show (getVal (bucketsAfterTransfer c.tokens_per_owner caller a st t) a).getD []
            = setInsert (bucketOf c a) t by
          rw [getVal_bucketsAfterTransfer_receiver _ st t hner]
          rfl]
        refine iff_of_true rfl ?_
        rw [mem_setInsert]
        exact Or.inr rfl
      · refine iff_of_false (fun hsome => har (Option.some.inj hsome).symm) ?_
        by_cases hac : a = caller
        · subst hac
          rw [getVal_bucketsAfterTransfer_owner _ st t hner, mem_setRemove]
          rintro ⟨-, hne⟩
          exact hne rfl
        · rw [show (getVal (bucketsAfterTransfer c.tokens_per_owner caller r st t) a).getD []
              = bucketOf c a by
            rw [getVal_bucketsAfterTransfer_other _ st t hac har]
            rfl]
          intro hmem
          have hoa := (hInv.sync t a).mpr hmem
          rw [howner] at hoa
          exact hac (Option.some.inj hoa).symm
    · rw [getVal_setVal_ne _ _ ht]
      by_cases har : a = r
      · subst har
        rw [show (getVal (bucketsAfterTransfer c.tokens_per_owner caller a st tid) a).getD []
            = setInsert (bucketOf c a) tid by
          rw [getVal_bucketsAfterTransfer_receiver _ st tid hner]
          rfl]
        rw [mem_setInsert]
        constructor
        · intro hsome
          exact Or.inl ((hInv.sync t a).mp hsome)
        · rintro (hmem | hteq)
          · exact (hInv.sync t a).mpr hmem
          · exact absurd hteq ht
      · by_cases hac : a = caller
        · subst hac
          rw [getVal_bucketsAfterTransfer_owner _ st tid hner, mem_setRemove]
          constructor
          · intro hsome
            have hmem := (hInv.sync t a).mp hsome
            rw [hbst] at hmem
            exact ⟨hmem, ht⟩
          · rintro ⟨hmem, -⟩
            apply (hInv.sync t a).mpr
            rw [hbst]
            exact hmem
        · rw [show (getVal (bucketsAfterTransfer c.tokens_per_owner caller r st tid) a).getD []
              = bucketOf c a by
            rw [getVal_bucketsAfterTransfer_other _ st tid hac har]
            rfl]
          exact hInv.sync t a
  · show ((getVal (bucketsAfterTransfer c.tokens_per_owner caller r st tid) a).getD []).Nodup
    by_cases har : a = r
    · subst har
      rw [show (getVal (bucketsAfterTransfer c.tokens_per_owner caller a st tid) a).getD []
          = setInsert (bucketOf c a) tid by
        rw [getVal_bucketsAfterTransfer_receiver _ st tid hner]
        rfl]
      exact nodup_setInsert _ (hInv.nodup a)
    · by_cases hac : a = caller
      · subst hac
        rw [getVal_bucketsAfterTransfer_owner _ st tid hner]
        exact nodup_setRemove _ hndst
      · rw [show (getVal (bucketsAfterTransfer c.tokens_per_owner caller r st tid) a).getD []
            = bucketOf c a by
          rw [getVal_bucketsAfterTransfer_other _ st tid hac har]
          rfl]
        exact hInv.nodup a

theorem inv_burn {c : Contract} {caller tid : String} {c' : Contract} {s : Sched}
    (hInv : Inv c) (h : burn c caller tid = .ok (c', s)) : Inv c' := by
  obtain ⟨howner, ownerTokens, hot, hbranch⟩ := burn_ok h
  have hbot : bucketOf c caller = ownerTokens := bucketOf_eq_of_getVal hot
  have htid : tid ∈ ownerTokens := by
    rw [← hbot]
    exact (hInv.sync tid caller).mp howner
  rcases hbranch with ⟨hempty, hfin⟩ | ⟨hne, hfin⟩
  · obtain ⟨hc, amt, -, -, hc', -⟩ := burnFinish_ok hfin
    subst hc'
    refine ⟨fun a => ?_, fun t a => ?_, fun a => ?_⟩
    · show a ∈ setRemove c.holders caller ↔
        (getVal (eraseKey c.tokens_per_owner caller) a).getD [] ≠ []
      by_cases hac : a = caller
      · subst hac
        rw [getVal_eraseKey_self]
        exact iff_of_false (not_mem_setRemove_self _ _) (fun hh => hh rfl)
      · rw [getVal_eraseKey_ne _ hac, mem_setRemove]
        constructor
        · rintro ⟨h1, -⟩
          exact (hInv.holders_iff a).mp h1
        · intro hb
          exact ⟨(hInv.holders_iff a).mpr hb, hac⟩
    · show getVal (eraseKey c.owner_by_id tid) t = some a ↔
        t ∈ (getVal (eraseKey c.tokens_per_owner caller) a).getD []
      by_cases ht : t = tid
      · subst ht
        rw [getVal_eraseKey_self]
        refine iff_of_false (by simp) ?_
        by_cases hac : a = caller
        · subst hac
          rw [getVal_eraseKey_self]
          exact List.not_mem_nil t
        · rw [getVal_eraseKey_ne _ hac]
          intro hmem
          have hoa := (hInv.sync t a).mpr hmem
          rw [howner] at hoa
          exact hac (Option.some.inj hoa).symm
      · rw [getVal_eraseKey_ne _ ht]
        by_cases hac : a = caller
        · subst hac
          rw [getVal_eraseKey_self]
          refine iff_of_false ?_ (List.not_mem_nil t)
          intro hsome
          have hmem := (hInv.sync t a).mp hsome
          rw [hbot] at hmem
          have hmem2 : t ∈ setRemove ownerTokens tid := (mem_setRemove _ _ _).mpr ⟨hmem, ht⟩
          rw [hempty] at hmem2
          exact List.not_mem_nil t hmem2
        · rw [getVal_eraseKey_ne _ hac]
          exact hInv.sync t a
    · show ((getVal (eraseKey c.tokens_per_owner caller) a).getD []).Nodup
      by_cases hac : a = caller
      · subst hac
        rw [getVal_eraseKey_self]
        exact List.nodup_nil
      · rw [getVal_eraseKey_ne _ hac]
        exact hInv.nodup a
  · obtain ⟨hc, amt, -, -, hc', -⟩ := burnFinish_ok hfin
    subst hc'
    refine ⟨fun a => ?_, fun t a => ?_, fun a => ?_⟩
    · show a ∈ c.holders ↔
        (getVal (setVal c.tokens_per_owner caller (setRemove ownerTokens tid)) a).getD [] ≠ []
      by_cases hac : a = caller
      · subst hac
        rw [getVal_setVal_self]
        refine iff_of_true ((hInv.holders_iff a).mpr ?_) hne
        rw [hbot]
        intro he
        rw [he] at htid
        exact List.not_mem_nil tid htid
      · rw [getVal_setVal_ne _ _ hac]
        exact hInv.holders_iff a
    · show getVal (eraseKey c.owner_by_id tid) t = some a ↔
        t ∈ (getVal (setVal c.tokens_per_owner caller (setRemove ownerTokens tid)) a).getD []
      by_cases ht : t = tid
      · subst ht
        rw [getVal_eraseKey_self]
        refine iff_of_false (by simp) ?_
        by_cases hac : a = caller
        · subst hac
          rw [getVal_setVal_self]
          show t ∉ setRemove ownerTokens t
          exact not_mem_setRemove_self _ _
        · rw [getVal_setVal_ne _ _ hac]
          intro hmem
          have hoa := (hInv.sync t a).mpr hmem
          rw [howner] at hoa
          exact hac (Option.some.inj hoa).symm
      · rw [getVal_eraseKey_ne _ ht]
        by_cases hac : a = caller
        · subst hac
          rw [getVal_setVal_self]
          show getVal c.owner_by_id t = some a ↔ t ∈ setRemove ownerTokens tid
          rw [mem_setRemove]
          constructor
          · intro hsome
            have hmem := (hInv.sync t a).mp hsome
            rw [hbot] at hmem
            exact ⟨hmem, ht⟩
          · rintro ⟨hmem, -⟩
            apply (hInv.sync t a).mpr
            rw [hbot]
            exact hmem
        · rw [getVal_setVal_ne _ _ hac]
          exact hInv.sync t a
    · show ((getVal (setVal c.tokens_per_owner caller (setRemove ownerTokens tid)) a).getD []).Nodup
      by_cases hac : a = caller
      · subst hac
        rw [getVal_setVal_self]
        show (setRemove ownerTokens tid).Nodup
        refine nodup_setRemove _ ?_
        rw [← hbot]
        exact hInv.nodup a
      · rw [getVal_setVal_ne _ _ hac]
        exact hInv.nodup a

/-- Every good operation (mints assign to the caller) preserves the
holder-registry invariant; a failing call leaves the state unchanged. -/
theorem inv_applyOp (codeLen : Nat) (c : Contract) (op : Op)
    (hInv : Inv c) (hgood : goodOp op = true) : Inv (applyOp codeLen c op) := by
  cases op with
  | mint caller dep tid towner =>
      have htc : towner = caller := by
        simpa [goodOp] using hgood
      subst htc
      simp only [applyOp]
      split
      · rename_i c' tok hok
        exact inv_mint hInv hok
      · exact hInv
  | transfer caller dep r tid =>
      simp only [applyOp]
      split
      · rename_i c' hok
        exact inv_transfer hInv hok
      · exact hInv
  | transferCall caller dep r tid =>
      simp only [applyOp]
      split
      · rename_i c' hok
        exact inv_transfer hInv hok
      · exact hInv
  | transferPayout caller dep r tid b =>
      simp only [applyOp]
      split
      · rename_i c' po hok
        exact inv_transfer hInv (payout_ok hok)
      · exact hInv
  | burn caller tid =>
      simp only [applyOp]
      split
      · rename_i c' s hok
        exact inv_burn hInv hok
      · exact hInv
  | withdraw caller =>
      simp only [applyOp]
      split
      · rename_i c' es hok
        obtain ⟨hh, hb, ho, -, -⟩ := withdraw_ok hok
        refine ⟨fun a => ?_, fun t a => ?_, fun a => ?_⟩
        · rw [hh, show bucketOf c' a = bucketOf c a by unfold bucketOf; rw [hb]]
          exact hInv.holders_iff a
        · rw [ho, show bucketOf c' a = bucketOf c a by unfold bucketOf; rw [hb]]
          exact hInv.sync t a
        · rw [show bucketOf c' a = bucketOf c a by unfold bucketOf; rw [hb]]
          exact hInv.nodup a
      · exact hInv
  | storageDeposit caller dep acct =>
      simp only [applyOp]
      split
      · rename_i c' hok
        obtain ⟨hh, hb, ho, -, -⟩ := storage_deposit_ok hok
        refine ⟨fun a => ?_, fun t a => ?_, fun a => ?_⟩
        · rw [hh, show bucketOf c' a = bucketOf c a by unfold bucketOf; rw [hb]]
          exact hInv.holders_iff a
        · rw [ho, show bucketOf c' a = bucketOf c a by unfold bucketOf; rw [hb]]
          exact hInv.sync t a
        · rw [show bucketOf c' a = bucketOf c a by unfold bucketOf; rw [hb]]
          exact hInv.nodup a
      · exact hInv

theorem inv_run (codeLen : Nat) (c0 : Contract) (ops : List Op)
    (h0 : Inv c0) (hgood : ∀ op ∈ ops, goodOp op = true) : Inv (run codeLen c0 ops) := by
  induction ops generalizing c0 with
  | nil => exact h0
  | cons op rest ih =>
      unfold run
      rw [List.foldl_cons]
      exact ih (applyOp codeLen c0 op)
        (inv_applyOp codeLen c0 op h0 (hgood op (List.mem_cons_self _ _)))
        (fun o ho => hgood o (List.mem_cons_of_mem _ ho))

/-- C1 (counterexample): from a fresh contract, a single `nft_mint`
called by `"a"` with `token_owner_id = "b"` leaves `"a"` in the holders
set while `"a"`'s per-owner token count is 0 — the source inserts the
*caller* into the holder registry (line 162) while the token registry
assigns the token to `token_owner_id` (line 221), so membership is not
equivalent to a positive per-owner token count after this operation. -/
theorem c1_holders_iff_counterexample :
    ¬ ("a" ∈ (run 0 (new "o" 100 none 100 0 200 "tr" 0)
        [Op.mint "a" BIGDEP "t1" "b"]).holders ↔
      0 < (bucketOf (run 0 (new "o" 100 none 100 0 200 "tr" 0)
        [Op.mint "a" BIGDEP "t1" "b"]) "a").length) := by
  decide

/-- C1 (amended): for every sequence of new/nft_mint/nft_transfer (and
its call and payout variants)/burn operations from a fresh contract in
which every mint assigns the minted token to the calling account
itself, after each operation an account is a member of the holders set
iff that account's per-owner token count in the enumeration index is
positive. -/
theorem c1_holders_iff_good_mints (codeLen : Nat) (owner_id : String) (mint_price : Nat)
    (mint_currency : Option String) (payment_split_percent total_supply burn_fee : Nat)
    (treasury : String) (royalty : Nat) (ops : List Op)
    (hgood : ∀ op ∈ ops, goodOp op = true) (a : String) :
    a ∈ (run codeLen (new owner_id mint_price mint_currency payment_split_percent
        total_supply burn_fee treasury royalty) ops).holders ↔
      0 < (bucketOf (run codeLen (new owner_id mint_price mint_currency
        payment_split_percent total_supply burn_fee treasury royalty) ops) a).length := by
  have hInv := inv_run codeLen _ ops
    (inv_new owner_id mint_price mint_currency payment_split_percent total_supply
      burn_fee treasury royalty) hgood
  rw [hInv.holders_iff a]
  exact List.length_pos.symm

theorem c1_holders_iff_good_mints_witness :
    ("a" ∈ (run 0 (new "o" 100 none 100 0 200 "tr" 0)
        [Op.mint "a" BIGDEP "t1" "a"]).holders ↔
      0 < (bucketOf (run 0 (new "o" 100 none 100 0 200 "tr" 0)
        [Op.mint "a" BIGDEP "t1" "a"]) "a").length) :=
  c1_holders_iff_good_mints 0 "o" 100 none 100 0 200 "tr" 0
    [Op.mint "a" BIGDEP "t1" "a"] (by decide) "a"

theorem burnDividend_ne_underflow (c : Contract) (hc : Nat) :
    burnDividend c hc ≠ .error .underflow := by
  unfold burnDividend
  split
  · simp
  rcases checkedMul_cases c.mint_price c.payment_split_percent with h1 | h1 <;>
    simp only [h1]
  · rcases checkedMul_cases (c.mint_price * c.payment_split_percent) c.burn_fee
      with h2 | h2 <;> simp only [h2]
    · simp
    · intro hcontra
      exact absurd (Except.error.inj hcontra) (by decide)
  · intro hcontra
    exact absurd (Except.error.inj hcontra) (by decide)

theorem burnFinish_false_ne_underflow (c : Contract) (ob : List (String × String))
    (buckets' : List (String × List String)) (holders' : List String)
    (caller tid : String) (hlen : 1 ≤ holders'.length) :
    burnFinish c ob buckets' holders' false caller tid ≠ .error .underflow := by
  unfold burnFinish
  rw [if_neg (by decide : ¬ ((false : Bool) = true)), checkedSub_of_le hlen]
  rcases hbd : burnDividend c (holders'.length - 1) with e | amt
  · simp only [hbd]
    intro h
    have he : e = Err.underflow := Except.error.inj h
    rw [he] at hbd
    exact burnDividend_ne_underflow c (holders'.length - 1) hbd
  · simp only [hbd]
    simp

/-- C10 (counterexample): the sequence mint("a" → "b", t1),
mint("a" → "a", t2), transfer("a" → "b", t2) leaves "b" owning two
tokens while the holder registry is empty; "b" burning t1 then takes
the branch where the owner retains other tokens, and
`holders_count -= 1` underflows, aborting the call. -/
theorem c10_burn_underflow_counterexample :
    setRemove (bucketOf (run 0 (new "o" 100 none 100 0 200 "tr" 0)
        [Op.mint "a" BIGDEP "t1" "b", Op.mint "a" BIGDEP "t2" "a",
         Op.transfer "a" 1 "b" "t2"]) "b") "t1" ≠ [] ∧
    (run 0 (new "o" 100 none 100 0 200 "tr" 0)
        [Op.mint "a" BIGDEP "t1" "b", Op.mint "a" BIGDEP "t2" "a",
         Op.transfer "a" 1 "b" "t2"]).holders = [] ∧
    burn (run 0 (new "o" 100 none 100 0 200 "tr" 0)
        [Op.mint "a" BIGDEP "t1" "b", Op.mint "a" BIGDEP "t2" "a",
         Op.transfer "a" 1 "b" "t2"]) "b" "t1" = .error Err.underflow := by
  decide

/-- C10 (amended): for every state reachable by an operation sequence
in which every mint assigns the token to the caller, whenever burn
takes the branch where the burning owner retains other tokens (the
bucket is non-empty after removing the burned token), the holders set
has size at least 1, and the `holders_count -= 1` subtraction never
underflows. -/
theorem c10_burn_no_underflow (codeLen : Nat) (owner_id : String) (mint_price : Nat)
    (mint_currency : Option String) (payment_split_percent total_supply burn_fee : Nat)
    (treasury : String) (royalty : Nat) (ops : List Op)
    (hgood : ∀ op ∈ ops, goodOp op = true) (t o : String)
    (howner : getVal (run codeLen (new owner_id mint_price mint_currency
      payment_split_percent total_supply burn_fee treasury royalty) ops).owner_by_id t
      = some o)
    (hkeep : setRemove (bucketOf (run codeLen (new owner_id mint_price mint_currency
      payment_split_percent total_supply burn_fee treasury royalty) ops) o) t ≠ []) :
    0 < (run codeLen (new owner_id mint_price mint_currency payment_split_percent
      total_supply burn_fee treasury royalty) ops).holders.length ∧
    burn (run codeLen (new owner_id mint_price mint_currency payment_split_percent
      total_supply burn_fee treasury royalty) ops) o t ≠ .error Err.underflow := by
  have hInv := inv_run codeLen _ ops
    (inv_new owner_id mint_price mint_currency payment_split_percent total_supply
      burn_fee treasury royalty) hgood
  revert howner hkeep
  generalize run codeLen (new owner_id mint_price mint_currency payment_split_percent
    total_supply burn_fee treasury royalty) ops = c at hInv
  intro howner hkeep
  have hbne : bucketOf c o ≠ [] := by
    intro he
    apply hkeep
    rw [he]
    rfl
  have hmem : o ∈ c.holders := (hInv.holders_iff o).mpr hbne
  have hlen : 0 < c.holders.length := List.length_pos_of_mem hmem
  refine ⟨hlen, ?_⟩
  have hsome : getVal c.tokens_per_owner o = some (bucketOf c o) := by
    rcases hgv : getVal c.tokens_per_owner o with _ | l
    · exfalso
      apply hbne
      unfold bucketOf
      rw [hgv]
      rfl
    · unfold bucketOf
      rw [hgv]
      rfl
  have hred : burn c o t = burnFinish c (eraseKey c.owner_by_id t)
      (setVal c.tokens_per_owner o (setRemove (bucketOf c o) t)) c.holders false o t := by
    simp only [burn, howner, hsome]
    rw [if_neg (fun hh => hh rfl), if_neg hkeep]
  rw [hred]
  exact burnFinish_false_ne_underflow c _ _ _ o t hlen

theorem c10_burn_no_underflow_witness :
    0 < (run 0 (new "o" 100 none 100 0 200 "tr" 0)
        [Op.mint "b" BIGDEP "t1" "b", Op.mint "b" BIGDEP "t2" "b"]).holders.length ∧
    burn (run 0 (new "o" 100 none 100 0 200 "tr" 0)
        [Op.mint "b" BIGDEP "t1" "b", Op.mint "b" BIGDEP "t2" "b"]) "b" "t1"
      ≠ .error Err.underflow :=
  c10_burn_no_underflow 0 "o" 100 none 100 0 200 "tr" 0
    [Op.mint "b" BIGDEP "t1" "b", Op.mint "b" BIGDEP "t2" "b"]
    (by decide) "t1" "b" (by decide) (by decide)

/-- C2 (amended): from every state with a positive supply cap already
reached (`index = total_supply > 0`), a further `nft_mint` fails; the
failed call rolls back atomically, so no token is created, `index` is
unchanged and the constructed vault-provisioning promises are
discarded.  (The check itself runs *after* the provisioning chain is
constructed and the index incremented — see the counterexample.) -/
theorem c2_supply_cap_rollback (codeLen : Nat) (c : Contract) (caller : String)
    (dep : Nat) (tid towner : String)
    (h1 : 0 < c.total_supply) (h2 : c.index = c.total_supply) :
    isOk (nft_mint codeLen c caller dep tid towner).2 = false ∧
    issuedScheds (nft_mint codeLen c caller dep tid towner) = [] ∧
    applyOp codeLen c (Op.mint caller dep tid towner) = c := by
  have hfin : ∀ c1 : Contract, c1.index = c.index → c1.total_supply = c.total_supply →
      ∃ e, mintFinish c1 tid towner = .error e := by
    intro c1 hidx hts
    unfold mintFinish
    rcases checkedAdd_cases c1.index 1 with hca | hca <;> simp only [hca]
    · have hcond : 0 < c1.total_supply ∧ c1.total_supply < c1.index + 1 := by
        constructor
        · rw [hts]
          exact h1
        · rw [hts, hidx, h2]
          omega
      rw [if_pos hcond]
      exact ⟨.exceededSupply, rfl⟩
    · exact ⟨.overflow, rfl⟩
  have hres : ∃ e, (nft_mint codeLen c caller dep tid towner).2 = .error e := by
    unfold nft_mint
    split
    · exact ⟨_, rfl⟩
    split
    · exact ⟨_, rfl⟩
    split
    · exact ⟨_, rfl⟩
    · exact hfin _ rfl rfl
  obtain ⟨e, he⟩ := hres
  refine ⟨by rw [he]; rfl, by simp only [issuedScheds, he], ?_⟩
  simp only [applyOp]
  split
  · rename_i c' tok heq
    rw [he] at heq
    exact absurd heq (by simp)
  · rfl

theorem c2_supply_cap_rollback_witness :
    isOk (nft_mint 0 c2State "a" BIGDEP "t6" "a").2 = false ∧
    issuedScheds (nft_mint 0 c2State "a" BIGDEP "t6" "a") = [] ∧
    applyOp 0 c2State (Op.mint "a" BIGDEP "t6" "a") = c2State :=
  c2_supply_cap_rollback 0 c2State "a" BIGDEP "t6" "a" (by decide) (by decide)

/-- C2 (counterexample): the 6th mint on the full collection fails, yet
the vault-provisioning promise chain *was* constructed during the
failing call (the trace of built promise batches is non-empty, holding
the provisioning batch and the resolve continuation): the supply-cap
check does not short-circuit before the provisioning chain starts — in
the source the chain is built at lines 186-215 and the cap is checked
at lines 216-219. -/
theorem c2_supply_cap_counterexample :
    isOk (nft_mint 0 c2State "a" BIGDEP "t6" "a").2 = false ∧
    (nft_mint 0 c2State "a" BIGDEP "t6" "a").1 =
      [Sched.provision "t6" VAULT_STORAGE, Sched.resolve "o" 0 100] := by
  decide

theorem mintSplit_ok {c : Contract} {va oa : Nat} (h : mintSplit c = .ok (va, oa)) :
    va = c.mint_price * c.payment_split_percent / 100 ∧ oa = c.mint_price - va ∧
    va ≤ c.mint_price := by
  unfold mintSplit at h
  split at h
  · exact absurd h (by simp)
  rename_i p hp
  split at h
  · exact absurd h (by simp)
  rename_i oa' hoa
  injection h with hpair
  injection hpair with hva hoa2
  have hpe : p = c.mint_price * c.payment_split_percent := by
    unfold checkedMul at hp
    split at hp
    · exact (Except.ok.inj hp).symm
    · exact absurd hp (by simp)
  unfold checkedSub at hoa
  split at hoa
  · rename_i hle
    have hoae : oa' = c.mint_price - p / 100 := (Except.ok.inj hoa).symm
    subst hpe
    refine ⟨hva.symm, ?_, ?_⟩
    · rw [← hoa2, hoae, hva]
    · rw [← hva]
      exact hle
  · exact absurd hoa (by simp)

theorem mint_ok_sched {codeLen : Nat} {c : Contract} {caller : String} {dep : Nat}
    {tid towner : String}
    (hok : isOk (nft_mint codeLen c caller dep tid towner).2 = true) :
    ∃ mn, minimumNeeded codeLen = .ok mn ∧
      c.mint_price * c.payment_split_percent / 100 ≤ c.mint_price ∧
      (nft_mint codeLen c caller dep tid towner).1 =
        [Sched.provision tid mn,
         Sched.resolve c.owner_id
           (c.mint_price - c.mint_price * c.payment_split_percent / 100)
           (c.mint_price * c.payment_split_percent / 100)] := by
  rcases hmn : minimumNeeded codeLen with e | mn
  · exfalso
    unfold nft_mint at hok
    simp only [hmn] at hok
    simp [isOk] at hok
  rcases hpc : mintPaymentCheck c caller dep mn with e | u
  · exfalso
    unfold nft_mint at hok
    simp only [hmn, hpc] at hok
    simp [isOk] at hok
  rcases hsp : mintSplit c with e | vaoa
  · exfalso
    unfold nft_mint at hok
    simp only [hmn, hpc, hsp] at hok
    simp [isOk] at hok
  obtain ⟨va, oa⟩ := vaoa
  obtain ⟨hva, hoa, hle⟩ := mintSplit_ok hsp
  refine ⟨mn, rfl, ?_, ?_⟩
  · rw [← hva]
    exact hle
  · unfold nft_mint
    simp only [hmn, hpc, hsp]
    rw [hoa, hva]

/-- C4: in every successful `nft_mint`, `vault_amount = mint_price *
payment_split_percent / 100` (truncating) and `owner_amount =
mint_price - vault_amount`, so their sum is exactly `mint_price`, and
these two amounts are the ones passed to the scheduled `resolve_create`
continuation. -/
theorem c4_mint_split (codeLen : Nat) (c : Contract) (caller : String) (dep : Nat)
    (tid towner : String)
    (hok : isOk (nft_mint codeLen c caller dep tid towner).2 = true) :
    Sched.resolve c.owner_id
        (c.mint_price - c.mint_price * c.payment_split_percent / 100)
        (c.mint_price * c.payment_split_percent / 100)
      ∈ issuedScheds (nft_mint codeLen c caller dep tid towner) ∧
    c.mint_price * c.payment_split_percent / 100 ≤ c.mint_price ∧
    c.mint_price * c.payment_split_percent / 100 +
      (c.mint_price - c.mint_price * c.payment_split_percent / 100) = c.mint_price := by
  obtain ⟨mn, hmn, hle, htrace⟩ := mint_ok_sched hok
  refine ⟨?_, hle, Nat.add_sub_cancel' hle⟩
  unfold issuedScheds
  rcases hres : (nft_mint codeLen c caller dep tid towner).2 with e | pr
  · rw [hres] at hok
    simp [isOk] at hok
  · simp only [hres]
    rw [htrace]
    exact List.mem_cons_of_mem _ (List.mem_cons_self _ _)

theorem c4_mint_split_witness :
    Sched.resolve c4Base.owner_id
        (c4Base.mint_price - c4Base.mint_price * c4Base.payment_split_percent / 100)
        (c4Base.mint_price * c4Base.payment_split_percent / 100)
      ∈ issuedScheds (nft_mint 0 c4Base "a" BIGDEP "t1" "a") ∧
    c4Base.mint_price * c4Base.payment_split_percent / 100 ≤ c4Base.mint_price ∧
    c4Base.mint_price * c4Base.payment_split_percent / 100 +
      (c4Base.mint_price - c4Base.mint_price * c4Base.payment_split_percent / 100) =
        c4Base.mint_price :=
  c4_mint_split 0 c4Base "a" BIGDEP "t1" "a" (by decide)

theorem mintFinish_of (c1 : Contract) (tid towner : String)
    (hidx : c1.index + 1 < U128LIMIT)
    (hcap : ¬ (0 < c1.total_supply ∧ c1.total_supply < c1.index + 1))
    (hfresh : getVal c1.owner_by_id tid = none) :
    mintFinish c1 tid towner = .ok ({ c1 with
        index := c1.index + 1
        owner_by_id := setVal c1.owner_by_id tid towner
        tokens_per_owner := setVal c1.tokens_per_owner towner
          (setInsert ((getVal c1.tokens_per_owner towner).getD []) tid) },
      ⟨tid, towner⟩) := by
  unfold mintFinish
  have hadd : checkedAdd c1.index 1 = .ok (c1.index + 1) := by
    unfold checkedAdd
    rw [if_pos hidx]
  simp only [hadd]
  rw [if_neg hcap, if_neg (by rw [hfresh]; simp)]

/-- C9: `nft_mint` performs no caller-authorization check (the source's
check is commented out at line 163): for an arbitrary caller — equal to
the collection owner or not — a mint satisfying the payment check, the
supply cap, token-id freshness and the arithmetic side conditions
succeeds, and the minted token is assigned to the `token_owner_id`
argument, which may differ from the caller. -/
theorem c9_mint_no_auth (codeLen : Nat) (c : Contract) (caller : String) (dep : Nat)
    (tid towner : String) (mn : Nat)
    (hmn : minimumNeeded codeLen = .ok mn)
    (hpay : mintPaymentCheck c caller dep mn = .ok ())
    (hpsp : c.payment_split_percent ≤ 100)
    (hmul : c.mint_price * c.payment_split_percent < U128LIMIT)
    (hidx : c.index + 1 < U128LIMIT)
    (hcap : c.total_supply = 0 ∨ c.index + 1 ≤ c.total_supply)
    (hfresh : getVal c.owner_by_id tid = none) :
    (nft_mint codeLen c caller dep tid towner).2 =
      .ok ({ c with
          holders := setInsert c.holders caller
          index := c.index + 1
          owner_by_id := setVal c.owner_by_id tid towner
          tokens_per_owner := setVal c.tokens_per_owner towner
            (setInsert (bucketOf c towner) tid) },
        ⟨tid, towner⟩) := by
  have h1 : checkedMul c.mint_price c.payment_split_percent =
      .ok (c.mint_price * c.payment_split_percent) := by
    unfold checkedMul
    rw [if_pos hmul]
  have hva_le : c.mint_price * c.payment_split_percent / 100 ≤ c.mint_price := by
    calc c.mint_price * c.payment_split_percent / 100
        ≤ c.mint_price * 100 / 100 :=
          Nat.div_le_div_right (Nat.mul_le_mul_left _ hpsp)
      _ = c.mint_price := by omega
  have hsp : mintSplit c = .ok (c.mint_price * c.payment_split_percent / 100,
      c.mint_price - c.mint_price * c.payment_split_percent / 100) := by
    unfold mintSplit
    simp only [h1, checkedSub_of_le hva_le]
  have hcapc : ¬ (0 < c.total_supply ∧ c.total_supply < c.index + 1) := by
    rintro ⟨hpos, hlt⟩
    rcases hcap with h0 | hle
    · rw [h0] at hpos
      exact absurd hpos (lt_irrefl 0)
    · omega
  unfold nft_mint
  simp only [hmn, hpay, hsp]
  exact mintFinish_of _ tid towner hidx hcapc hfresh

theorem c9_mint_no_auth_witness :
    (nft_mint 0 c9Base "mallory" BIGDEP "t1" "bob").2 =
      .ok ({ c9Base with
          holders := setInsert c9Base.holders "mallory"
          index := c9Base.index + 1
          owner_by_id := setVal c9Base.owner_by_id "t1" "bob"
          tokens_per_owner := setVal c9Base.tokens_per_owner "bob"
            (setInsert (bucketOf c9Base "bob") "t1") },
        ⟨"t1", "bob"⟩) ∧ "mallory" ≠ "o" ∧ "bob" ≠ "mallory" :=
  ⟨c9_mint_no_auth 0 c9Base "mallory" BIGDEP "t1" "bob" VAULT_STORAGE
      (by decide) (by decide) (by decide) (by decide) (by decide) (Or.inl rfl) rfl,
    by decide, by decide⟩

theorem withdraw_zero (c : Contract) (caller : String)
    (h0 : fget c.balances_by_owner caller = 0) : withdraw c caller = .ok (c, []) := by
  unfold withdraw
  rw [if_neg (by simp [h0])]

theorem withdraw_pos (c : Contract) (caller : String)
    (h0 : 0 < fget c.balances_by_owner caller) :
    withdraw c caller = .ok
      ({ c with balances_by_owner := setVal c.balances_by_owner caller 0 },
        [match c.mint_currency with
         | some ft => WEffect.ftTransfer ft caller (fget c.balances_by_owner caller)
         | none => WEffect.nearTransfer caller (fget c.balances_by_owner caller)]) := by
  unfold withdraw
  rw [if_pos h0]
  rcases hg : getVal c.balances_by_owner caller with _ | v
  · exfalso
    unfold fget at h0
    rw [hg] at h0
    exact absurd h0 (lt_irrefl 0)
  · simp only [hg]

/-- C5: `withdraw` never errors; with a zero payout balance it is a
no-op (same state, no transfer); with a positive balance it dispatches
one transfer of the full balance (alternate-currency call when
configured, native otherwise) and zeroes the ledger entry; hence after
any withdraw, a second withdraw by the same caller is a no-op with the
balance at 0. -/
theorem c5_withdraw_idempotent (c : Contract) (caller : String) :
    isOk (withdraw c caller) = true ∧
    (fget c.balances_by_owner caller = 0 → withdraw c caller = .ok (c, [])) ∧
    (0 < fget c.balances_by_owner caller →
      withdraw c caller = .ok
        ({ c with balances_by_owner := setVal c.balances_by_owner caller 0 },
          [match c.mint_currency with
           | some ft => WEffect.ftTransfer ft caller (fget c.balances_by_owner caller)
           | none => WEffect.nearTransfer caller (fget c.balances_by_owner caller)])) ∧
    (∀ c' es, withdraw c caller = .ok (c', es) →
      withdraw c' caller = .ok (c', []) ∧ fget c'.balances_by_owner caller = 0) := by
  refine ⟨?_, withdraw_zero c caller, withdraw_pos c caller, ?_⟩
  · by_cases hb : 0 < fget c.balances_by_owner caller
    · rw [withdraw_pos c caller hb]
      rfl
    · rw [withdraw_zero c caller (by omega)]
      rfl
  · intro c' es h
    by_cases hb : 0 < fget c.balances_by_owner caller
    · rw [withdraw_pos c caller hb] at h
      injection h with hp
      injection hp with h1 h2
      have hbal : fget c'.balances_by_owner caller = 0 := by
        rw [← h1]
        show fget (setVal c.balances_by_owner caller 0) caller = 0
        unfold fget
        rw [getVal_setVal_self]
        rfl
      exact ⟨withdraw_zero c' caller hbal, hbal⟩
    · rw [withdraw_zero c caller (by omega)] at h
      injection h with hp
      injection hp with h1 h2
      have hbal : fget c'.balances_by_owner caller = 0 := by
        rw [← h1]
        omega
      exact ⟨withdraw_zero c' caller hbal, hbal⟩

theorem c5_withdraw_idempotent_witness :
    withdraw c5Base "a" = .ok
      ({ c5Base with balances_by_owner := setVal c5Base.balances_by_owner "a" 0 },
        [WEffect.nearTransfer "a" 5]) ∧
    withdraw { c5Base with balances_by_owner := setVal c5Base.balances_by_owner "a" 0 } "a" =
      .ok ({ c5Base with balances_by_owner := setVal c5Base.balances_by_owner "a" 0 }, []) := by
  have h := c5_withdraw_idempotent c5Base "a"
  have h3 := h.2.2.1 (by decide)
  refine ⟨h3, ?_⟩
  exact (h.2.2.2 _ _ h3).1

theorem burnDividend_ok_val {c : Contract} {hc amt : Nat}
    (h : burnDividend c hc = .ok amt) : amt = divAmt c hc := by
  unfold burnDividend at h
  unfold divAmt
  split at h
  · rename_i h0
    rw [if_pos h0]
    exact (Except.ok.inj h).symm
  rename_i h0
  rw [if_neg h0]
  split at h
  · exact absurd h (by simp)
  rename_i x1 hx1
  split at h
  · exact absurd h (by simp)
  rename_i x2 hx2
  have e1 : x1 = c.mint_price * c.payment_split_percent := by
    unfold checkedMul at hx1
    split at hx1
    · exact (Except.ok.inj hx1).symm
    · exact absurd hx1 (by simp)
  have e2 : x2 = x1 * c.burn_fee := by
    unfold checkedMul at hx2
    split at hx2
    · exact (Except.ok.inj hx2).symm
    · exact absurd hx2 (by simp)
  rw [← Except.ok.inj h, e2, e1]

theorem fget_setVal_self (l : List (String × Nat)) (k : String) (v : Nat) :
    fget (setVal l k v) k = v := by
  unfold fget
  rw [getVal_setVal_self]
  rfl

theorem fget_setVal_ne (l : List (String × Nat)) {k k' : String} (v : Nat) (h : k' ≠ k) :
    fget (setVal l k v) k' = fget l k' := by
  unfold fget
  rw [getVal_setVal_ne _ _ h]

theorem creditAll_cons (h : String) (t : List String) (owner : String) (amt : Nat)
    (bal : List (String × Nat)) :
    creditAll (h :: t) owner amt bal =
      creditAll t owner amt (if h ≠ owner then setVal bal h (fget bal h + amt) else bal) := by
  unfold creditAll
  rw [List.foldl_cons]

theorem creditAll_not_mem {hs : List String} {owner : String} {amt : Nat}
    {bal : List (String × Nat)} {a : String} (ha : a ∉ hs) :
    fget (creditAll hs owner amt bal) a = fget bal a := by
  induction hs generalizing bal with
  | nil => rfl
  | cons h t ih =>
      rw [creditAll_cons]
      have hat : a ∉ t := fun hm => ha (List.mem_cons_of_mem _ hm)
      have hah : a ≠ h := fun he => ha (he ▸ List.mem_cons_self h t)
      rw [ih hat]
      split
      · rw [fget_setVal_ne _ _ hah]
      · rfl

theorem creditAll_self {hs : List String} {owner : String} {amt : Nat}
    {bal : List (String × Nat)} :
    fget (creditAll hs owner amt bal) owner = fget bal owner := by
  induction hs generalizing bal with
  | nil => rfl
  | cons h t ih =>
      rw [creditAll_cons, ih]
      split
      · rename_i hne
        rw [fget_setVal_ne _ _ (Ne.symm hne)]
      · rfl

theorem creditAll_mem {hs : List String} (hnd : hs.Nodup) {a owner : String}
    (ha : a ∈ hs) (hao : a ≠ owner) {amt : Nat} {bal : List (String × Nat)} :
    fget (creditAll hs owner amt bal) a = fget bal a + amt := by
  induction hs generalizing bal with
  | nil => exact absurd ha (List.not_mem_nil a)
  | cons h t ih =>
      rw [creditAll_cons]
      rw [List.nodup_cons] at hnd
      rcases List.mem_cons.mp ha with rfl | hat
      · rw [creditAll_not_mem hnd.1, if_pos hao, fget_setVal_self]
      · rw [ih hnd.2 hat]
        congr 1
        split
        · rename_i hne
          have hah : a ≠ h := fun he => hnd.1 (he ▸ hat)
          rw [fget_setVal_ne _ _ hah]
        · rfl

/-- C3 (amended): for every successful burn, with holders_count equal
to the size of the holders set after the registry update when the
burning owner's bucket emptied, and the registry size *minus one* when
it did not, the per-holder dividend is 0 at holders_count 0 and
otherwise `mint_price * payment_split_percent * burn_fee / 20000 /
holders_count` (two successive truncating divisions, checked 128-bit
multiplications); every member of the iterated holders set other than
the burning owner has exactly this amount added to their payout
balance, and the burning owner receives no credit. -/
theorem c3_burn_dividend (c : Contract) (o t : String) (c' : Contract) (s : Sched)
    (hnd : c.holders.Nodup) (h : burn c o t = .ok (c', s)) :
    (setRemove (bucketOf c o) t = [] →
      (∀ a, a ∈ setRemove c.holders o →
        fget c'.balances_by_owner a =
          fget c.balances_by_owner a + divAmt c (setRemove c.holders o).length) ∧
      fget c'.balances_by_owner o = fget c.balances_by_owner o) ∧
    (setRemove (bucketOf c o) t ≠ [] →
      (∀ a, a ∈ c.holders → a ≠ o →
        fget c'.balances_by_owner a =
          fget c.balances_by_owner a + divAmt c (c.holders.length - 1)) ∧
      fget c'.balances_by_owner o = fget c.balances_by_owner o) := by
  obtain ⟨howner, ownerTokens, hot, hbranch⟩ := burn_ok h
  have hbot : bucketOf c o = ownerTokens := bucketOf_eq_of_getVal hot
  rcases hbranch with ⟨hempty, hfin⟩ | ⟨hne, hfin⟩
  · obtain ⟨hc, amt, hhc, hamt, hc', -⟩ := burnFinish_ok hfin
    rw [if_pos rfl] at hhc
    have hceq : hc = (setRemove c.holders o).length := (Except.ok.inj hhc).symm
    have hamt2 : amt = divAmt c (setRemove c.holders o).length := by
      rw [← hceq]
      exact burnDividend_ok_val hamt
    constructor
    · intro _
      constructor
      · intro a ha
        have hao : a ≠ o := ((mem_setRemove _ _ _).mp ha).2
        rw [hc']
        show fget (creditAll (setRemove c.holders o) o amt c.balances_by_owner) a = _
        rw [creditAll_mem (nodup_setRemove _ hnd) ha hao, hamt2]
      · rw [hc']
        show fget (creditAll (setRemove c.holders o) o amt c.balances_by_owner) o = _
        exact creditAll_self
    · intro hne2
      exfalso
      apply hne2
      rw [hbot]
      exact hempty
  · obtain ⟨hc, amt, hhc, hamt, hc', -⟩ := burnFinish_ok hfin
    rw [if_neg (by decide : ¬ ((false : Bool) = true))] at hhc
    unfold checkedSub at hhc
    split at hhc
    · rename_i hle
      have hceq : hc = c.holders.length - 1 := (Except.ok.inj hhc).symm
      have hamt2 : amt = divAmt c (c.holders.length - 1) := by
        rw [← hceq]
        exact burnDividend_ok_val hamt
      constructor
      · intro heq
        exfalso
        apply hne
        rw [← hbot]
        exact heq
      · intro _
        constructor
        · intro a ha hao
          rw [hc']
          show fget (creditAll c.holders o amt c.balances_by_owner) a = _
          rw [creditAll_mem hnd ha hao, hamt2]
        · rw [hc']
          show fget (creditAll c.holders o amt c.balances_by_owner) o = _
          exact creditAll_self
    · exact absurd hhc (by simp)

/-- C3 (counterexample): "b" burns t1 while owning t2 (the retained
branch); "a" is a member of the holders set distinct from the burning
owner, and the claim's holders_count — the size of the holders set
excluding the burning owner — is 1, so the claim predicts a credit of
`100 * 100 * 200 / 20000 / 1 = 100` to "a"; but the code computes
`holders.len() - 1 = 0`, pays a dividend of 0, and "a"'s payout balance
stays 0. -/
theorem c3_burn_dividend_counterexample :
    isOk (burn c3State "b" "t1") = true ∧
    setRemove (bucketOf c3State "b") "t1" ≠ [] ∧
    "a" ∈ c3State.holders ∧ "a" ≠ "b" ∧
    (setRemove c3State.holders "b").length = 1 ∧
    divAmt c3State 1 = 100 ∧
    (match burn c3State "b" "t1" with
     | .ok (c', _) => fget c'.balances_by_owner "a"
     | .error _ => 1) = 0 ∧
    fget c3State.balances_by_owner "a" = 0 := by
  decide

theorem c3_burn_dividend_witness :
    (match burn c3WState "b" "t2" with
     | .ok (c', _) => fget c'.balances_by_owner "a"
     | .error _ => 1) =
      fget c3WState.balances_by_owner "a" +
        divAmt c3WState (setRemove c3WState.holders "b").length := by
  rcases hb : burn c3WState "b" "t2" with e | pr
  · have hok : isOk (burn c3WState "b" "t2") = true := by decide
    rw [hb] at hok
    simp [isOk] at hok
  · obtain ⟨c', s⟩ := pr
    simp only [hb]
    have h := (c3_burn_dividend c3WState "b" "t2" c' s (by decide) hb).1 (by decide)
    exact h.1 "a" (by decide)

/-! ## The royalty split (C6) -/
theorem div_add_div_le (x y k : Nat) (hk : 0 < k) : x / k + y / k ≤ (x + y) / k := by
  rw [Nat.le_div_iff_mul_le hk]
  calc (x / k + y / k) * k = x / k * k + y / k * k := by ring
    _ ≤ x + y := Nat.add_le_add (Nat.div_mul_le_self x k) (Nat.div_mul_le_self y k)

theorem payout_ok_map {c : Contract} {caller : String} {dep : Nat} {r tid : String}
    {b : Nat} {c' : Contract} {po : List (String × Nat)}
    (h : nft_transfer_payout c caller dep r tid (some b) = .ok (c', some po)) :
    ∃ prevOwner, getVal c.owner_by_id tid = some prevOwner ∧
      c.royalty ≤ 10000 ∧
      po = setVal (setVal [] c.owner_id (c.royalty * b / 10000)) prevOwner
        ((10000 - c.royalty) * b / 10000) := by
  unfold nft_transfer_payout at h
  split at h
  · exact absurd h (by simp)
  split at h
  · exact absurd h (by simp)
  rename_i prevOwner hprev
  split at h
  · exact absurd h (by simp)
  rename_i c'' htr
  split at h
  · injection h with hp
    injection hp with h1 h2
    exact absurd h2 (by simp)
  rename_i b2 hb2
  have hb2e : b = b2 := Option.some.inj hb2
  subst hb2e
  split at h
  · exact absurd h (by simp)
  rename_i cc hcc
  split at h
  · exact absurd h (by simp)
  rename_i bp hbp
  split at h
  · exact absurd h (by simp)
  rename_i sc hsc
  injection h with hp
  injection hp with h1 h2
  have hbpv : bp = 10000 - c.royalty ∧ c.royalty ≤ 10000 := by
    unfold checkedSub at hbp
    split at hbp
    · exact ⟨(Except.ok.inj hbp).symm, by assumption⟩
    · exact absurd hbp (by simp)
  have hccv : cc = c.royalty * b / 10000 := by
    unfold royalty_to_payout at hcc
    split at hcc
    · exact absurd hcc (by simp)
    · rename_i p hpmul
      unfold checkedMul at hpmul
      split at hpmul
      · rw [← Except.ok.inj hcc, ← Except.ok.inj hpmul]
      · exact absurd hpmul (by simp)
  have hscv : sc = (10000 - c.royalty) * b / 10000 := by
    unfold royalty_to_payout at hsc
    split at hsc
    · exact absurd hsc (by simp)
    · rename_i p hpmul
      unfold checkedMul at hpmul
      split at hpmul
      · rw [← Except.ok.inj hsc, ← Except.ok.inj hpmul, hbpv.1]
      · exact absurd hpmul (by simp)
  refine ⟨prevOwner, hprev, hbpv.2, ?_⟩
  rw [← Option.some.inj h2, hccv, hscv]

/-- C6 (amended): for every royalty at most 10000 and every sale
balance, a successful `nft_transfer_payout` returns a mapping whose
entry for the previous owner is `(10000 - royalty) * balance / 10000`
(truncating); when the collection owner is distinct from the previous
owner, the collection owner's entry is `royalty * balance / 10000`
exactly (when they coincide the single entry is the seller cut — the
second insertion overwrites the first, see the counterexample); and
`seller_cut + collection_cut ≤ balance`. -/
theorem c6_royalty_split (c : Contract) (caller : String) (dep : Nat) (r tid : String)
    (b : Nat) (c' : Contract) (po : List (String × Nat))
    (hroy : c.royalty ≤ 10000)
    (h : nft_transfer_payout c caller dep r tid (some b) = .ok (c', some po))
    (prevOwner : String) (hprev : getVal c.owner_by_id tid = some prevOwner) :
    getVal po prevOwner = some ((10000 - c.royalty) * b / 10000) ∧
    (c.owner_id ≠ prevOwner →
      getVal po c.owner_id = some (c.royalty * b / 10000)) ∧
    c.royalty * b / 10000 + (10000 - c.royalty) * b / 10000 ≤ b := by
  obtain ⟨po2, hprev2, -, hpo⟩ := payout_ok_map h
  have hpe : po2 = prevOwner := by
    rw [hprev2] at hprev
    exact Option.some.inj hprev
  subst hpe
  subst hpo
  refine ⟨getVal_setVal_self _ _ _, ?_, ?_⟩
  · intro hne
    rw [getVal_setVal_ne _ _ hne, getVal_setVal_self]
  · have hsum : c.royalty * b + (10000 - c.royalty) * b = 10000 * b := by
      have hr : c.royalty + (10000 - c.royalty) = 10000 := by omega
      calc c.royalty * b + (10000 - c.royalty) * b
          = (c.royalty + (10000 - c.royalty)) * b := by ring
        _ = 10000 * b := by rw [hr]
    calc c.royalty * b / 10000 + (10000 - c.royalty) * b / 10000
        ≤ (c.royalty * b + (10000 - c.royalty) * b) / 10000 :=
          div_add_div_le _ _ _ (by omega)
      _ = 10000 * b / 10000 := by rw [hsum]
      _ = b := by omega

/-- C6 (counterexample): with royalty 1000 and balance 10000, when the
previous owner is the collection owner, the returned mapping's entry
for the collection owner is 9000 (the seller cut, inserted second into
the map, overwriting the royalty entry), not the claimed
`collection_cut = royalty * balance / 10000 = 1000`. -/
theorem c6_royalty_split_counterexample :
    c6CexState.royalty ≤ 10000 ∧
    getVal c6CexState.owner_by_id "t1" = some c6CexState.owner_id ∧
    (match nft_transfer_payout c6CexState "alice" 1 "bob" "t1" (some 10000) with
     | .ok (_, some po) => getVal po "alice"
     | _ => none) = some 9000 ∧
    ¬ ((9000 : Nat) = c6CexState.royalty * 10000 / 10000) := by
  decide

theorem c6_royalty_split_witness :
    (match nft_transfer_payout c6WState "alice" 1 "bob" "t1" (some 10000) with
     | .ok (_, some po) => getVal po "carol"
     | _ => none) = some 1000 ∧
    (match nft_transfer_payout c6WState "alice" 1 "bob" "t1" (some 10000) with
     | .ok (_, some po) => getVal po "alice"
     | _ => none) = some 9000 := by
  rcases hc : nft_transfer_payout c6WState "alice" 1 "bob" "t1" (some 10000) with e | pr
  · exfalso
    have hok : isOk (nft_transfer_payout c6WState "alice" 1 "bob" "t1" (some 10000))
        = true := by decide
    rw [hc] at hok
    simp [isOk] at hok
  obtain ⟨c', po?⟩ := pr
  rcases po? with _ | po
  · exfalso
    have hshape : (match nft_transfer_payout c6WState "alice" 1 "bob" "t1" (some 10000) with
       | .ok (_, some _) => true
       | _ => false) = true := by decide
    rw [hc] at hshape
    simp at hshape
  · have h := c6_royalty_split c6WState "alice" 1 "bob" "t1" 10000 c' po
      (by decide) hc "alice" (by decide)
    constructor
    · simp only [hc]
      exact h.2.1 (by decide)
    · simp only [hc]
      exact h.1

/-! ## Frame properties (C7, C8) -/
theorem burn_fields {c : Contract} {caller tid : String} {c' : Contract} {s : Sched}
    (h : burn c caller tid = .ok (c', s)) :
    c'.storage_deposits = c.storage_deposits ∧ c'.ft_deposits = c.ft_deposits := by
  obtain ⟨-, ownerTokens, -, hbranch⟩ := burn_ok h
  rcases hbranch with ⟨-, hfin⟩ | ⟨-, hfin⟩ <;>
    · obtain ⟨hc, amt, -, -, hc', -⟩ := burnFinish_ok hfin
      rw [hc']
      exact ⟨rfl, rfl⟩

theorem storage_deposit_ok_shape {c : Contract} {caller : String} {dep : Nat}
    {acct : Option String} {c' : Contract}
    (h : storage_deposit c caller dep acct = .ok c') :
    c' = { c with
      storage_deposits := setVal c.storage_deposits (acct.getD caller)
        (fget c.storage_deposits (acct.getD caller) + dep) } := by
  unfold storage_deposit at h
  split at h
  · exact absurd h (by simp)
  split at h
  · exact absurd h (by simp)
  rename_i bal hbal
  unfold checkedAdd at hbal
  split at hbal
  · have hbe : fget c.storage_deposits (acct.getD caller) + dep = bal :=
      Except.ok.inj hbal
    rw [← hbe] at h
    exact (Except.ok.inj h).symm
  · exact absurd hbal (by simp)

/-- C7: `storage_deposit` with a payment below `STORAGE_PER_SALE`
fails with no mutation; at or above the minimum it adds the payment to
the target account's entry (the target defaulting to the caller); and
no operation of this core ever decreases a `storage_deposits` entry. -/
theorem c7_storage_deposit_spec (codeLen : Nat) (c : Contract) (caller : String)
    (dep : Nat) (acct : Option String) :
    (dep < STORAGE_PER_SALE →
      storage_deposit c caller dep acct = .error .storageMin ∧
      applyOp codeLen c (Op.storageDeposit caller dep acct) = c) ∧
    (STORAGE_PER_SALE ≤ dep →
      fget c.storage_deposits (acct.getD caller) + dep < U128LIMIT →
      storage_deposit c caller dep acct = .ok { c with
        storage_deposits := setVal c.storage_deposits (acct.getD caller)
          (fget c.storage_deposits (acct.getD caller) + dep) } ∧
      fget (setVal c.storage_deposits (acct.getD caller)
          (fget c.storage_deposits (acct.getD caller) + dep)) (acct.getD caller) =
        fget c.storage_deposits (acct.getD caller) + dep) ∧
    (∀ op a, fget c.storage_deposits a ≤ fget (applyOp codeLen c op).storage_deposits a) := by
  refine ⟨?_, ?_, ?_⟩
  · intro h
    have herr : storage_deposit c caller dep acct = .error .storageMin := by
      unfold storage_deposit
      rw [if_pos h]
    refine ⟨herr, ?_⟩
    simp only [applyOp]
    split
    · rename_i c' heq
      rw [herr] at heq
      exact absurd heq (by simp)
    · rfl
  · intro h1 h2
    have hca : checkedAdd (fget c.storage_deposits (acct.getD caller)) dep =
        .ok (fget c.storage_deposits (acct.getD caller) + dep) := by
      unfold checkedAdd
      rw [if_pos h2]
    constructor
    · unfold storage_deposit
      rw [if_neg (not_lt.mpr h1)]
      simp only [hca]
    · exact fget_setVal_self _ _ _
  · intro op a
    cases op with
    | mint caller2 dep2 tid towner =>
        simp only [applyOp]
        split
        · rename_i c' tok heq
          obtain ⟨-, -, hc'⟩ := mint_ok heq
          rw [hc']
        · exact Nat.le_refl _
    | transfer caller2 dep2 r tid =>
        simp only [applyOp]
        split
        · rename_i c' heq
          obtain ⟨st, -, -, -, -, hc'⟩ := transfer_ok heq
          rw [hc']
        · exact Nat.le_refl _
    | transferCall caller2 dep2 r tid =>
        simp only [applyOp]
        split
        · rename_i c' heq
          obtain ⟨st, -, -, -, -, hc'⟩ := transfer_ok heq
          rw [hc']
        · exact Nat.le_refl _
    | transferPayout caller2 dep2 r tid b =>
        simp only [applyOp]
        split
        · rename_i c' po heq
          obtain ⟨st, -, -, -, -, hc'⟩ := transfer_ok (payout_ok heq)
          rw [hc']
        · exact Nat.le_refl _
    | burn caller2 tid =>
        simp only [applyOp]
        split
        · rename_i c' s heq
          rw [(burn_fields heq).1]
        · exact Nat.le_refl _
    | withdraw caller2 =>
        simp only [applyOp]
        split
        · rename_i c' es heq
          rw [(withdraw_ok heq).2.2.2.1]
        · exact Nat.le_refl _
    | storageDeposit caller2 dep2 acct2 =>
        simp only [applyOp]
        split
        · rename_i c' heq
          rw [storage_deposit_ok_shape heq]
          show fget c.storage_deposits a ≤
            fget (setVal c.storage_deposits (acct2.getD caller2)
              (fget c.storage_deposits (acct2.getD caller2) + dep2)) a
          by_cases ha : a = acct2.getD caller2
          · subst ha
            rw [fget_setVal_self]
            exact Nat.le_add_right _ _
          · rw [fget_setVal_ne _ _ ha]
        · exact Nat.le_refl _

theorem c7_storage_deposit_spec_witness :
    storage_deposit (new "o" 100 none 80 0 200 "tr" 0) "a" STORAGE_PER_SALE none =
      .ok { (new "o" 100 none 80 0 200 "tr" 0) with
        storage_deposits := setVal (new "o" 100 none 80 0 200 "tr" 0).storage_deposits "a"
          (fget (new "o" 100 none 80 0 200 "tr" 0).storage_deposits "a"
            + STORAGE_PER_SALE) } :=
  ((c7_storage_deposit_spec 0 (new "o" 100 none 80 0 200 "tr" 0) "a"
    STORAGE_PER_SALE none).2.1 (Nat.le_refl _) (by decide)).1

/-- C8: no operation of this core writes the alternate-currency
deposit ledger: every operation — a successful `nft_mint` included,
also when a mint currency is configured and the mint is paid from that
ledger — leaves `ft_deposits` exactly unchanged (mint only reads the
caller's entry in its payment check). -/
theorem c8_ft_deposits_frame (codeLen : Nat) (c : Contract) (op : Op) :
    (applyOp codeLen c op).ft_deposits = c.ft_deposits := by
  cases op with
  | mint caller dep tid towner =>
      simp only [applyOp]
      split
      · rename_i c' tok heq
        obtain ⟨-, -, hc'⟩ := mint_ok heq
        rw [hc']
      · rfl
  | transfer caller dep r tid =>
      simp only [applyOp]
      split
      · rename_i c' heq
        obtain ⟨st, -, -, -, -, hc'⟩ := transfer_ok heq
        rw [hc']
      · rfl
  | transferCall caller dep r tid =>
      simp only [applyOp]
      split
      · rename_i c' heq
        obtain ⟨st, -, -, -, -, hc'⟩ := transfer_ok heq
        rw [hc']
      · rfl
  | transferPayout caller dep r tid b =>
      simp only [applyOp]
      split
      · rename_i c' po heq
        obtain ⟨st, -, -, -, -, hc'⟩ := transfer_ok (payout_ok heq)
        rw [hc']
      · rfl
  | burn caller tid =>
      simp only [applyOp]
      split
      · rename_i c' s heq
        exact (burn_fields heq).2
      · rfl
  | withdraw caller =>
      simp only [applyOp]
      split
      · rename_i c' es heq
        exact (withdraw_ok heq).2.2.2.2
      · rfl
  | storageDeposit caller dep acct =>
      simp only [applyOp]
      split
      · rename_i c' heq
        rw [storage_deposit_ok_shape heq]
      · rfl

end NftMarketplace
